import Mathlib

/-!
Verification of the build-gap resolution and grouping engine of picopypi.

The development shallowly embeds the relevant Python modules:

* `src/picopypi/build.py` — the `Abi` and `Target` string enumerations and
  the derived comparison on `Abi`;
* `src/picopypi/command/build.py` — `gather_build_infos` (the gap resolver),
  `group_builds` (the grouper), `expand_wheels` (the satisfaction-index
  builder) and `_SatisfactionKey`;
* `src/picopypi/releases.py` — `parse` (the release-asset feed parser),
  `_sort_tag` and the `_InverseSorter`-based wheel comparator;
* `src/picopypi/gitutil.py` — the `revision` validator.

Modelling conventions, kept uniform throughout:

* Python strings are lists of characters (`Str`); `startswith`, `endswith`,
  `rpartition` and `int()` are modelled by the helpers below.
* Python's `sorted` (a stable comparison sort driven by `__lt__`) is modelled
  by `List.insertionSort r` with `r a b := (lt b a = false)`, which is a
  stable sort with exactly that pivot test; no claim observes the relative
  order of key-equal elements, so any stable sort is an adequate model.
* `itertools.groupby(xs, key=k)` is modelled by `chunkBy k xs`, which splits
  a list into maximal runs of consecutive elements with equal keys.
* Python tuple comparison (test `==` on components first, then `<`) is
  modelled by the `pairLt` combinator.
* Generators consumed strictly by their callers (as `group_builds` does via
  `sorted`, which drains `gather_build_infos` completely before anything
  downstream observes a value) are modelled as `Except`-valued functions:
  an exception raised during iteration means the consumer obtains nothing.
* `packaging.version.Version` is an external dependency; it is modelled as
  an arbitrary linearly ordered type `V`, and `packaging.version.parse` as
  an abstract parser `String → Option V`.
-/

namespace Picopypi

/-- Python strings, modelled as lists of characters. -/
abbrev Str : Type := List Char

/-- Python `s.startswith(p)`. -/
def strStartsWith (s p : Str) : Bool := p.isPrefixOf s

/-- Python `s.endswith(p)`. -/
def strEndsWith (s p : Str) : Bool := p.isSuffixOf s

/-- Python `int(s)` for a plain decimal-digit string; `none` models the
`ValueError` raised on an empty or non-digit string. -/
def strToNat? (s : Str) : Option Nat :=
  if s = [] then none
  else if s.all Char.isDigit then
    some (s.foldl (fun n c => 10 * n + (c.toNat - 48)) 0)
  else none

/-- Python `s.rpartition("_")[2]`: the text after the last underscore, or the
whole string when no underscore occurs. -/
def afterLastUnderscore (s : Str) : Str := (s.splitOn '_').getLastD []

/-- Python `<` on values of a linear order (`str`, `int`, versions). -/
def ltBase {α : Type} [LinearOrder α] (x y : α) : Bool := decide (x < y)

/-- CPython tuple comparison `x < y` on a pair: the interpreter first tests
the leading components for equality and only falls back to `<` on the first
unequal position. Nesting `pairLt` yields the comparison of longer tuples. -/
def pairLt {α β : Type} [LinearOrder α] (ltb : β → β → Bool) (x y : α × β) : Bool :=
  if x.1 = y.1 then ltb x.2 y.2 else decide (x.1 < y.1)

theorem ltBase_irrefl {α : Type} [LinearOrder α] (x : α) : ltBase x x = false := by
  simp [ltBase]

theorem ltBase_asymm {α : Type} [LinearOrder α] (x y : α) (h : ltBase x y = true) :
    ltBase y x = false := by
  simp only [ltBase, decide_eq_true_eq] at h
  simpa [ltBase] using not_lt_of_gt h

theorem ltBase_trans {α : Type} [LinearOrder α] (x y z : α)
    (h₁ : ltBase x y = true) (h₂ : ltBase y z = true) : ltBase x z = true := by
  simp only [ltBase, decide_eq_true_eq] at *
  exact lt_trans h₁ h₂

theorem ltBase_connex {α : Type} [LinearOrder α] (x y : α) (h : x ≠ y) :
    ltBase x y = true ∨ ltBase y x = true := by
  simp only [ltBase, decide_eq_true_eq]
  exact lt_or_gt_of_ne h

theorem pairLt_irrefl {α β : Type} [LinearOrder α] {ltb : β → β → Bool}
    (hb : ∀ x, ltb x x = false) (x : α × β) : pairLt ltb x x = false := by
  simp [pairLt, hb]

theorem pairLt_asymm {α β : Type} [LinearOrder α] {ltb : β → β → Bool}
    (hb : ∀ x y, ltb x y = true → ltb y x = false)
    (x y : α × β) (h : pairLt ltb x y = true) : pairLt ltb y x = false := by
  unfold pairLt at h ⊢
  by_cases h1 : x.1 = y.1
  · simp only [h1, if_pos rfl] at h
    simp [h1.symm, hb _ _ h]
  · simp only [if_neg h1, decide_eq_true_eq] at h
    have : ¬ y.1 = x.1 := fun e => h1 e.symm
    simp [this, not_lt_of_gt h]

theorem pairLt_trans {α β : Type} [LinearOrder α] {ltb : β → β → Bool}
    (hb : ∀ x y z, ltb x y = true → ltb y z = true → ltb x z = true)
    (x y z : α × β) (h₁ : pairLt ltb x y = true) (h₂ : pairLt ltb y z = true) :
    pairLt ltb x z = true := by
  unfold pairLt at h₁ h₂ ⊢
  by_cases e₁ : x.1 = y.1 <;> by_cases e₂ : y.1 = z.1
  · simp only [if_pos e₁] at h₁
    simp only [if_pos e₂] at h₂
    simp [e₁.trans e₂, hb _ _ _ h₁ h₂]
  · simp only [if_neg e₂, decide_eq_true_eq] at h₂
    have hlt : x.1 < z.1 := e₁ ▸ h₂
    simp [ne_of_lt hlt, hlt]
  · simp only [if_neg e₁, decide_eq_true_eq] at h₁
    have hlt : x.1 < z.1 := e₂ ▸ h₁
    simp [ne_of_lt hlt, hlt]
  · simp only [if_neg e₁, decide_eq_true_eq] at h₁
    simp only [if_neg e₂, decide_eq_true_eq] at h₂
    have hlt : x.1 < z.1 := lt_trans h₁ h₂
    simp [ne_of_lt hlt, hlt]

theorem pairLt_connex {α β : Type} [LinearOrder α] {ltb : β → β → Bool}
    (hb : ∀ x y, x ≠ y → ltb x y = true ∨ ltb y x = true)
    (x y : α × β) (h : x ≠ y) : pairLt ltb x y = true ∨ pairLt ltb y x = true := by
  unfold pairLt
  by_cases e : x.1 = y.1
  · have h2 : x.2 ≠ y.2 := by
      intro e2
      exact h (Prod.ext e e2)
    simp only [if_pos e, if_pos e.symm]
    exact hb _ _ h2
  · have e' : ¬ y.1 = x.1 := fun q => e q.symm
    simp only [if_neg e, if_neg e', decide_eq_true_eq]
    exact lt_or_gt_of_ne e

theorem pairLt_cases {α β : Type} [LinearOrder α] {ltb : β → β → Bool}
    {x y : α × β} (h : pairLt ltb x y = true) :
    x.1 < y.1 ∨ (x.1 = y.1 ∧ ltb x.2 y.2 = true) := by
  unfold pairLt at h
  by_cases e : x.1 = y.1
  · right
    simp only [if_pos e] at h
    exact ⟨e, h⟩
  · left
    simpa [e] using h

theorem pairLt_of_lt_left {α β : Type} [LinearOrder α] {ltb : β → β → Bool}
    {x y : α × β} (h : x.1 < y.1) : pairLt ltb x y = true := by
  simp [pairLt, ne_of_lt h, h]

theorem pairLt_of_eq_left {α β : Type} [LinearOrder α] {ltb : β → β → Bool}
    {x y : α × β} (h : x.1 = y.1) (hb : ltb x.2 y.2 = true) : pairLt ltb x y = true := by
  simp [pairLt, h, hb]

/-- The `Abi` string enumeration from `build.py`. -/
inductive Abi : Type where
  | CP310
  | CP311
  | CP312
  | CP313
  | CP313T
  | CP314
  | CP314T
deriving DecidableEq, Repr

/-- The `value` of each `Abi` member, exactly as declared in `build.py`. -/
def Abi.value : Abi → Str
  | .CP310 => "cp310".toList
  | .CP311 => "cp311".toList
  | .CP312 => "cp312".toList
  | .CP313 => "cp313".toList
  | .CP313T => "cp313t".toList
  | .CP314 => "cp314".toList
  | .CP314T => "cp314t".toList

/-- All `Abi` members, in declaration order. -/
def Abi.members : List Abi :=
  [.CP310, .CP311, .CP312, .CP313, .CP313T, .CP314, .CP314T]

/-- `Abi(s)`: enum lookup by value; `none` models the `ValueError` raised for
a string that is not a member value. -/
def Abi.ofStr? (s : Str) : Option Abi :=
  Abi.members.find? (fun a => a.value == s)

/-- `Abi.parts` from `build.py`: split the string value into
`(value[:2], int(value[2]), int(minor), special)` where a trailing `"t"` or
`"m"` is peeled off into `special`. -/
def Abi.parts (a : Abi) : Str × Nat × Nat × Str :=
  let v := a.value
  let minor := v.drop 3
  if strEndsWith v ['t'] || strEndsWith v ['m'] then
    (v.take 2, (strToNat? ((v.drop 2).take 1)).getD 0,
      (strToNat? minor.dropLast).getD 0, [v.getLastD ' '])
  else
    (v.take 2, (strToNat? ((v.drop 2).take 1)).getD 0,
      (strToNat? minor).getD 0, [])

/-- `Abi.__lt__` from `build.py`: Python tuple comparison of `parts`. -/
def Abi.lt (a b : Abi) : Bool := pairLt (pairLt (pairLt ltBase)) a.parts b.parts

/-- The `Target` string enumeration from `build.py`. -/
inductive Target : Type where
  | MANYLINUX_ARM7
  | MACOS
deriving DecidableEq, Repr

/-- The `value` of each `Target` member, exactly as declared in `build.py`. -/
def Target.value : Target → Str
  | .MANYLINUX_ARM7 => "manylinux_armv7l".toList
  | .MACOS => "macosx_universal2".toList

/-- All `Target` members, in declaration order. -/
def Target.members : List Target := [.MANYLINUX_ARM7, .MACOS]

/-- `Target(s)`: enum lookup by value; `none` models the `ValueError` raised
for a string that is not a member value. -/
def Target.ofStr? (s : Str) : Option Target :=
  Target.members.find? (fun t => t.value == s)

theorem abiOfStr_value (a : Abi) : Abi.ofStr? a.value = some a := by
  cases a <;> decide

theorem abiValue_of_ofStr {s : Str} {a : Abi} (h : Abi.ofStr? s = some a) :
    a.value = s := by
  have := List.find?_some h
  simpa [beq_iff_eq] using this

theorem targetOfStr_value (t : Target) : Target.ofStr? t.value = some t := by
  cases t <;> decide

theorem targetValue_of_ofStr {s : Str} {t : Target} (h : Target.ofStr? s = some t) :
    t.value = s := by
  have := List.find?_some h
  simpa [beq_iff_eq] using this

theorem Abi.lt_irrefl (a : Abi) : Abi.lt a a = false :=
  pairLt_irrefl (pairLt_irrefl (pairLt_irrefl ltBase_irrefl)) _

theorem Abi.lt_asymm {a b : Abi} (h : Abi.lt a b = true) : Abi.lt b a = false :=
  pairLt_asymm (pairLt_asymm (pairLt_asymm ltBase_asymm)) _ _ h

theorem Abi.lt_trans {a b c : Abi} (h₁ : Abi.lt a b = true) (h₂ : Abi.lt b c = true) :
    Abi.lt a c = true :=
  pairLt_trans (pairLt_trans (pairLt_trans ltBase_trans)) _ _ _ h₁ h₂

/-- `parts` is injective on the enumeration (all seven value tuples differ). -/
theorem Abi.parts_inj {a b : Abi} (h : Abi.parts a = Abi.parts b) : a = b := by
  revert h
  cases a <;> cases b <;> decide

theorem Abi.lt_connex {a b : Abi} (h : a ≠ b) :
    Abi.lt a b = true ∨ Abi.lt b a = true := by
  refine pairLt_connex (pairLt_connex (pairLt_connex ltBase_connex)) _ _ ?_
  exact fun e => h (Abi.parts_inj e)

/-- `BuildInfo` from `command/build.py`: one gap unit emitted by the resolver.
`version` is a parsed `packaging.version.Version`, modelled by `V`. -/
structure BuildInfo (V : Type) where
  package : Str
  repository : Str
  revision : Str
  version : V
  target : Target
  abi : Abi
deriving DecidableEq, Repr

/-- `BuildPass` from `command/build.py`. -/
structure BuildPass : Type where
  target : Target
  abis : List Abi
deriving DecidableEq, Repr

/-- `Build` from `command/build.py`. -/
structure Build (V : Type) where
  version : V
  revision : Str
  passes : List BuildPass
deriving DecidableEq, Repr

/-- `BuildGroup` from `command/build.py`. -/
structure BuildGroup (V : Type) where
  package : Str
  repository : Str
  builds : List (Build V)
deriving DecidableEq, Repr

variable {V : Type} [LinearOrder V] [DecidableEq V]

/-- `build_group_key` from `group_builds`. -/
def buildGroupKey (b : BuildInfo V) : Str × Str := (b.package, b.repository)

/-- `build_key` from `group_builds`. -/
def buildKey (b : BuildInfo V) : V × Str := (b.version, b.revision)

/-- `pass_key` from `group_builds`. -/
def passKey (b : BuildInfo V) : Target := b.target

/-- `sort_key` from `group_builds`; Python compares the `Target` member in the
last slot by its string value, as `Target` is a `str` subclass. -/
def sortKey (b : BuildInfo V) : Str × Str × V × Str × Str :=
  (b.package, b.repository, b.version, b.revision, b.target.value)

/-- CPython tuple `<` on `sort_key` tuples. -/
def sortKeyLt (x y : Str × Str × V × Str × Str) : Bool :=
  pairLt (pairLt (pairLt (pairLt ltBase))) x y

/-- The pivot relation of Python's `sorted` on `BuildInfo`: element `a` may
stay before `b` exactly when `sort_key(b) < sort_key(a)` fails. -/
def sortedBefore (a b : BuildInfo V) : Prop := sortKeyLt (sortKey b) (sortKey a) = false

/-- Pivot relation of Python's `sorted(...)` over `Abi` values inside a pass. -/
def abiBefore (a b : Abi) : Prop := Abi.lt b a = false

instance : DecidableRel (abiBefore) :=
  fun a b => inferInstanceAs (Decidable (Abi.lt b a = false))

instance : DecidableRel (sortedBefore : BuildInfo V → BuildInfo V → Prop) :=
  fun a b => inferInstanceAs (Decidable (sortKeyLt (sortKey b) (sortKey a) = false))

/-- Python `sorted` on the per-pass ABI list. -/
def sortAbis (l : List Abi) : List Abi := l.insertionSort abiBefore

/-- Accumulator worker for `chunkBy`; `acc` holds the current run reversed. -/
def chunkByAux {α κ : Type} (k : α → κ) [DecidableEq κ] :
    κ → List α → List α → List (κ × List α)
  | key, acc, [] => [(key, acc.reverse)]
  | key, acc, a :: as =>
    if k a = key then chunkByAux k key (a :: acc) as
    else (key, acc.reverse) :: chunkByAux k (k a) [a] as

/-- `itertools.groupby(xs, key=k)`: maximal runs of consecutive elements with
equal keys, each tagged with the shared key. -/
def chunkBy {α κ : Type} (k : α → κ) [DecidableEq κ] : List α → List (κ × List α)
  | [] => []
  | a :: as => chunkByAux k (k a) [a] as

theorem chunkByAux_flatten {α κ : Type} (k : α → κ) [DecidableEq κ]
    (l : List α) : ∀ (key : κ) (acc : List α),
    ((chunkByAux k key acc l).map Prod.snd).flatten = acc.reverse ++ l := by
  induction l with
  | nil => intro key acc; simp [chunkByAux]
  | cons a as ih =>
    intro key acc
    by_cases h : k a = key
    · rw [chunkByAux, if_pos h, ih]
      simp
    · rw [chunkByAux, if_neg h]
      simp only [List.map_cons, List.flatten_cons, ih]
      simp

theorem chunkBy_flatten {α κ : Type} (k : α → κ) [DecidableEq κ] (l : List α) :
    ((chunkBy k l).map Prod.snd).flatten = l := by
  cases l with
  | nil => rfl
  | cons a as => rw [chunkBy, chunkByAux_flatten]; rfl

theorem chunkByAux_runs {α κ : Type} (k : α → κ) [DecidableEq κ]
    (l : List α) : ∀ (key : κ) (acc : List α), acc ≠ [] → (∀ a ∈ acc, k a = key) →
    ∀ p ∈ chunkByAux k key acc l, p.2 ≠ [] ∧ ∀ a ∈ p.2, k a = p.1 := by
  induction l with
  | nil =>
    intro key acc hne hacc p hp
    simp only [chunkByAux, List.mem_singleton] at hp
    subst hp
    refine ⟨by simpa using hne, ?_⟩
    intro a ha
    exact hacc a (List.mem_reverse.mp ha)
  | cons a as ih =>
    intro key acc hne hacc p hp
    by_cases h : k a = key
    · rw [chunkByAux, if_pos h] at hp
      refine ih key (a :: acc) (by simp) ?_ p hp
      intro b hb
      rcases List.mem_cons.mp hb with hb | hb
      · exact hb ▸ h
      · exact hacc b hb
    · rw [chunkByAux, if_neg h] at hp
      rcases List.mem_cons.mp hp with hp | hp
      · subst hp
        refine ⟨by simpa using hne, ?_⟩
        intro b hb
        exact hacc b (List.mem_reverse.mp hb)
      · exact ih (k a) [a] (by simp) (by simp) p hp

theorem chunkBy_runs {α κ : Type} (k : α → κ) [DecidableEq κ] (l : List α) :
    ∀ p ∈ chunkBy k l, p.2 ≠ [] ∧ ∀ a ∈ p.2, k a = p.1 := by
  cases l with
  | nil => intro p hp; simp [chunkBy] at hp
  | cons a as =>
    intro p hp
    exact chunkByAux_runs k as (k a) [a] (by simp) (by simp) p hp

theorem chunkBy_run_mem {α κ : Type} (k : α → κ) [DecidableEq κ] {l : List α}
    {p : κ × List α} (hp : p ∈ chunkBy k l) {a : α} (ha : a ∈ p.2) : a ∈ l := by
  rw [← chunkBy_flatten k l]
  exact List.mem_flatten.mpr ⟨p.2, List.mem_map_of_mem Prod.snd hp, ha⟩

theorem chunkBy_run_pairwise {α κ : Type} (k : α → κ) [DecidableEq κ]
    {R : α → α → Prop} {l : List α} (hl : l.Pairwise R) :
    ∀ p ∈ chunkBy k l, p.2.Pairwise R := by
  intro p hp
  have h : (((chunkBy k l).map Prod.snd).flatten).Pairwise R := by
    rw [chunkBy_flatten]; exact hl
  exact (List.pairwise_flatten.mp h).1 p.2 (List.mem_map_of_mem Prod.snd hp)

/-- The key sequence produced by `chunkByAux`, independent of the accumulator. -/
def chunkKeysAux {α κ : Type} (k : α → κ) [DecidableEq κ] : κ → List α → List κ
  | key, [] => [key]
  | key, a :: as =>
    if k a = key then chunkKeysAux k key as else key :: chunkKeysAux k (k a) as

theorem chunkByAux_map_fst {α κ : Type} (k : α → κ) [DecidableEq κ]
    (l : List α) : ∀ (key : κ) (acc : List α),
    (chunkByAux k key acc l).map Prod.fst = chunkKeysAux k key l := by
  induction l with
  | nil => intro key acc; simp [chunkByAux, chunkKeysAux]
  | cons a as ih =>
    intro key acc
    by_cases h : k a = key
    · rw [chunkByAux, if_pos h, chunkKeysAux, if_pos h, ih]
    · rw [chunkByAux, if_neg h, chunkKeysAux, if_neg h, List.map_cons, ih]

theorem chunkKeysAux_sub {α κ : Type} (k : α → κ) [DecidableEq κ]
    (l : List α) : ∀ (key : κ) (x : κ), x ∈ chunkKeysAux k key l →
    x = key ∨ ∃ a ∈ l, x = k a := by
  induction l with
  | nil => intro key x hx; left; simpa [chunkKeysAux] using hx
  | cons a as ih =>
    intro key x hx
    by_cases h : k a = key
    · rw [chunkKeysAux, if_pos h] at hx
      rcases ih key x hx with hx | ⟨b, hb, hxb⟩
      · exact Or.inl hx
      · exact Or.inr ⟨b, List.mem_cons_of_mem a hb, hxb⟩
    · rw [chunkKeysAux, if_neg h] at hx
      rcases List.mem_cons.mp hx with hx | hx
      · exact Or.inl hx
      · rcases ih (k a) x hx with hx | ⟨b, hb, hxb⟩
        · exact Or.inr ⟨a, List.mem_cons_self a as, hx⟩
        · exact Or.inr ⟨b, List.mem_cons_of_mem a hb, hxb⟩

theorem chunkKeysAux_pairwise {α κ : Type} (k : α → κ) [DecidableEq κ]
    {K : κ → κ → Prop} (htrans : ∀ x y z, K x y → K y z → K x z)
    (l : List α) : ∀ (key : κ),
    (∀ a ∈ l, k a = key ∨ K key (k a)) →
    l.Pairwise (fun a b => k a = k b ∨ K (k a) (k b)) →
    (chunkKeysAux k key l).Pairwise K := by
  induction l with
  | nil => intro key _ _; simp [chunkKeysAux]
  | cons a as ih =>
    intro key h1 h2
    rcases List.pairwise_cons.mp h2 with ⟨hhead, htail⟩
    by_cases h : k a = key
    · rw [chunkKeysAux, if_pos h]
      refine ih key (fun b hb => h1 b (List.mem_cons_of_mem a hb)) htail
    · rw [chunkKeysAux, if_neg h]
      have hka : K key (k a) := by
        rcases h1 a (List.mem_cons_self a as) with h' | h'
        · exact absurd h' h
        · exact h'
      refine List.pairwise_cons.mpr ⟨?_, ?_⟩
      · intro x hx
        rcases chunkKeysAux_sub k as (k a) x hx with hx | ⟨b, hb, hxb⟩
        · exact hx ▸ hka
        · subst hxb
          rcases hhead b hb with h' | h'
          · exact h' ▸ hka
          · exact htrans _ _ _ hka h'
      · refine ih (k a) ?_ htail
        intro b hb
        rcases hhead b hb with h' | h'
        · exact Or.inl h'.symm
        · exact Or.inr h'

theorem chunkBy_keys_pairwise {α κ : Type} (k : α → κ) [DecidableEq κ]
    {K : κ → κ → Prop} (htrans : ∀ x y z, K x y → K y z → K x z)
    {l : List α} (h2 : l.Pairwise (fun a b => k a = k b ∨ K (k a) (k b))) :
    ((chunkBy k l).map Prod.fst).Pairwise K := by
  cases l with
  | nil => simp [chunkBy]
  | cons a as =>
    rw [chunkBy, chunkByAux_map_fst]
    rcases List.pairwise_cons.mp h2 with ⟨hhead, htail⟩
    refine chunkKeysAux_pairwise k htrans as (k a) ?_ htail
    intro b hb
    rcases hhead b hb with h' | h'
    · exact Or.inl h'.symm
    · exact Or.inr h'

theorem flatMap_single_map {α β : Type} (q : α → β) (l : List α) :
    (l.flatMap fun b => [q b]) = l.map q := by
  induction l with
  | nil => rfl
  | cons a as ih => simp [ih]

theorem chunks_flatMap_perm {α κ β : Type} (chunks : List (κ × List α))
    (f : κ × List α → List β) (g : α → List β)
    (hf : ∀ p ∈ chunks, List.Perm (f p) (p.2.flatMap g)) :
    List.Perm (chunks.flatMap f) ((chunks.map Prod.snd).flatten.flatMap g) := by
  induction chunks with
  | nil => simp
  | cons p rest ih =>
    simp only [List.flatMap_cons, List.map_cons, List.flatten_cons, List.flatMap_append]
    exact (hf p (List.mem_cons_self p rest)).append
      (ih fun q hq => hf q (List.mem_cons_of_mem p hq))

/-- A `BuildPass` from one `itertools.groupby` run over `pass_key`:
`BuildPass(target, sorted(info.abi for info in pass_infos))`. -/
def mkPass (pc : Target × List (BuildInfo V)) : BuildPass :=
  { target := pc.1, abis := sortAbis (pc.2.map BuildInfo.abi) }

/-- A `Build` from one `itertools.groupby` run over `build_key`. -/
def mkBuild (bc : (V × Str) × List (BuildInfo V)) : Build V :=
  { version := bc.1.1, revision := bc.1.2,
    passes := (chunkBy passKey bc.2).map mkPass }

/-- A `BuildGroup` from one `itertools.groupby` run over `build_group_key`. -/
def mkGroup (gc : (Str × Str) × List (BuildInfo V)) : BuildGroup V :=
  { package := gc.1.1, repository := gc.1.2,
    builds := (chunkBy buildKey gc.2).map mkBuild }

/-- `group_builds` from `command/build.py`: sort by `sort_key`, then nested
`itertools.groupby` passes building the Group → Build → Pass tree, with each
pass's ABI list re-sorted by `Abi.__lt__`. -/
def group_builds (l : List (BuildInfo V)) : List (BuildGroup V) :=
  (chunkBy buildGroupKey (l.insertionSort sortedBefore)).map mkGroup

/-- The `(package, repository, version, revision, target, abi)` view of a
gap unit, as flattened from the execution plan. -/
def BuildInfo.tuple (b : BuildInfo V) : Str × Str × V × Str × Target × Abi :=
  (b.package, b.repository, b.version, b.revision, b.target, b.abi)

/-- The `(package, repository, version, revision, target)` view of a gap unit. -/
def BuildInfo.tuple5 (b : BuildInfo V) : Str × Str × V × Str × Target :=
  (b.package, b.repository, b.version, b.revision, b.target)

instance : DecidableEq (Str × Str × V × Str × Target × Abi) := fun x y =>
  decidable_of_iff
    (x.1 = y.1 ∧ x.2.1 = y.2.1 ∧ x.2.2.1 = y.2.2.1 ∧ x.2.2.2.1 = y.2.2.2.1 ∧
      x.2.2.2.2.1 = y.2.2.2.2.1 ∧ x.2.2.2.2.2 = y.2.2.2.2.2)
    (by simp [Prod.ext_iff])

instance : DecidableEq (Str × Str × V × Str × Target) := fun x y =>
  decidable_of_iff
    (x.1 = y.1 ∧ x.2.1 = y.2.1 ∧ x.2.2.1 = y.2.2.1 ∧ x.2.2.2.1 = y.2.2.2.1 ∧
      x.2.2.2.2 = y.2.2.2.2)
    (by simp [Prod.ext_iff])

/-- Flatten an execution plan back into six-component tuples. -/
def flattenPlan (gs : List (BuildGroup V)) : List (Str × Str × V × Str × Target × Abi) :=
  gs.flatMap fun g => g.builds.flatMap fun b => b.passes.flatMap fun p =>
    p.abis.map fun ab => (g.package, g.repository, b.version, b.revision, p.target, ab)

/-- The five-component tuple of every pass of an execution plan, one per pass. -/
def passTuples (gs : List (BuildGroup V)) : List (Str × Str × V × Str × Target) :=
  gs.flatMap fun g => g.builds.flatMap fun b =>
    b.passes.map fun p => (g.package, g.repository, b.version, b.revision, p.target)

theorem passes_flat_perm (pkg repo : Str) (ver : V) (rev : Str)
    (run2 : List (BuildInfo V)) :
    List.Perm
      (((chunkBy passKey run2).map mkPass).flatMap fun p =>
        p.abis.map fun ab => (pkg, repo, ver, rev, p.target, ab))
      (run2.map fun b => (pkg, repo, ver, rev, b.target, b.abi)) := by
  rw [List.flatMap_map]
  have h := chunks_flatMap_perm (chunkBy passKey run2)
    (fun pc => (mkPass pc).abis.map fun ab => (pkg, repo, ver, rev, (mkPass pc).target, ab))
    (fun b => [(pkg, repo, ver, rev, b.target, b.abi)]) ?_
  · rw [chunkBy_flatten, flatMap_single_map] at h
    exact h
  · intro pc hpc
    rcases chunkBy_runs passKey run2 pc hpc with ⟨-, hkey⟩
    rw [flatMap_single_map]
    have hperm : List.Perm (sortAbis (pc.2.map BuildInfo.abi)) (pc.2.map BuildInfo.abi) :=
      List.perm_insertionSort abiBefore _
    refine ((hperm.map fun ab => (pkg, repo, ver, rev, pc.1, ab)).trans ?_ : List.Perm _ _)
    rw [List.map_map]
    refine List.Perm.of_eq (List.map_congr_left ?_)
    intro b hb
    have ht : b.target = pc.1 := hkey b hb
    simp [Function.comp, ht]

theorem builds_flat_perm (pkg repo : Str) (run1 : List (BuildInfo V)) :
    List.Perm
      (((chunkBy buildKey run1).map mkBuild).flatMap fun b =>
        b.passes.flatMap fun p =>
          p.abis.map fun ab => (pkg, repo, b.version, b.revision, p.target, ab))
      (run1.map fun b => (pkg, repo, b.version, b.revision, b.target, b.abi)) := by
  rw [List.flatMap_map]
  have h := chunks_flatMap_perm (chunkBy buildKey run1)
    (fun bc => (mkBuild bc).passes.flatMap fun p =>
      p.abis.map fun ab => (pkg, repo, (mkBuild bc).version, (mkBuild bc).revision, p.target, ab))
    (fun b => [(pkg, repo, b.version, b.revision, b.target, b.abi)]) ?_
  · rw [chunkBy_flatten, flatMap_single_map] at h
    exact h
  · intro bc hbc
    rcases chunkBy_runs buildKey run1 bc hbc with ⟨-, hkey⟩
    rw [flatMap_single_map]
    refine ((passes_flat_perm pkg repo bc.1.1 bc.1.2 bc.2).trans ?_ : List.Perm _ _)
    refine List.Perm.of_eq (List.map_congr_left ?_)
    intro b hb
    have hbk : (b.version, b.revision) = bc.1 := hkey b hb
    have hv : b.version = bc.1.1 := by rw [← hbk]
    have hr : b.revision = bc.1.2 := by rw [← hbk]
    rw [hv, hr]

theorem flattenPlan_perm (l : List (BuildInfo V)) :
    List.Perm (flattenPlan (group_builds l)) (l.map BuildInfo.tuple) := by
  unfold flattenPlan group_builds
  rw [List.flatMap_map]
  have h := chunks_flatMap_perm (chunkBy buildGroupKey (l.insertionSort sortedBefore))
    (fun gc => (mkGroup gc).builds.flatMap fun b =>
      b.passes.flatMap fun p =>
        p.abis.map fun ab =>
          ((mkGroup gc).package, (mkGroup gc).repository, b.version, b.revision, p.target, ab))
    (fun b => [b.tuple]) ?_
  · rw [chunkBy_flatten, flatMap_single_map] at h
    exact h.trans ((List.perm_insertionSort sortedBefore l).map BuildInfo.tuple)
  · intro gc hgc
    rcases chunkBy_runs buildGroupKey (l.insertionSort sortedBefore) gc hgc with ⟨-, hkey⟩
    rw [flatMap_single_map]
    refine ((builds_flat_perm gc.1.1 gc.1.2 gc.2).trans ?_ : List.Perm _ _)
    refine List.Perm.of_eq (List.map_congr_left ?_)
    intro b hb
    have hgk : (b.package, b.repository) = gc.1 := hkey b hb
    have hp : b.package = gc.1.1 := by rw [← hgk]
    have hr : b.repository = gc.1.2 := by rw [← hgk]
    rw [BuildInfo.tuple, hp, hr]

theorem sortKeyLt_irrefl (x : Str × Str × V × Str × Str) : sortKeyLt x x = false :=
  pairLt_irrefl (pairLt_irrefl (pairLt_irrefl (pairLt_irrefl ltBase_irrefl))) x

theorem sortKeyLt_asymm {x y : Str × Str × V × Str × Str}
    (h : sortKeyLt x y = true) : sortKeyLt y x = false :=
  pairLt_asymm (pairLt_asymm (pairLt_asymm (pairLt_asymm ltBase_asymm))) x y h

theorem sortKeyLt_trans {x y z : Str × Str × V × Str × Str}
    (h₁ : sortKeyLt x y = true) (h₂ : sortKeyLt y z = true) : sortKeyLt x z = true :=
  pairLt_trans (pairLt_trans (pairLt_trans (pairLt_trans ltBase_trans))) x y z h₁ h₂

theorem sortKeyLt_connex {x y : Str × Str × V × Str × Str} (h : x ≠ y) :
    sortKeyLt x y = true ∨ sortKeyLt y x = true :=
  pairLt_connex (pairLt_connex (pairLt_connex (pairLt_connex ltBase_connex))) x y h

instance : IsTotal (BuildInfo V) sortedBefore where
  total a b := by
    unfold sortedBefore
    rcases Bool.eq_false_or_eq_true (sortKeyLt (sortKey b) (sortKey a)) with h | h
    · exact Or.inr (sortKeyLt_asymm h)
    · exact Or.inl h

instance : IsTrans (BuildInfo V) sortedBefore where
  trans a b c hab hbc := by
    unfold sortedBefore at *
    rcases Bool.eq_false_or_eq_true (sortKeyLt (sortKey c) (sortKey a)) with h | h
    case inr => exact h
    case inl =>
      exfalso
      by_cases he : sortKey c = sortKey b
      · rw [he] at h
        rw [h] at hab
        exact Bool.noConfusion hab
      · rcases sortKeyLt_connex he with h' | h'
        · rw [h'] at hbc
          exact Bool.noConfusion hbc
        · have hk := sortKeyLt_trans h' h
          rw [hk] at hab
          exact Bool.noConfusion hab

instance : IsTotal Abi abiBefore where
  total a b := by
    unfold abiBefore
    rcases Bool.eq_false_or_eq_true (Abi.lt b a) with h | h
    · exact Or.inr (Abi.lt_asymm h)
    · exact Or.inl h

instance : IsTrans Abi abiBefore where
  trans a b c hab hbc := by
    unfold abiBefore at *
    rcases Bool.eq_false_or_eq_true (Abi.lt c a) with h | h
    case inr => exact h
    case inl =>
      exfalso
      by_cases he : c = b
      · rw [he] at h
        rw [h] at hab
        exact Bool.noConfusion hab
      · rcases Abi.lt_connex he with h' | h'
        · rw [h'] at hbc
          exact Bool.noConfusion hbc
        · have hk := Abi.lt_trans h' h
          rw [hk] at hab
          exact Bool.noConfusion hab

theorem sortKeyLt_decomp {x y : Str × Str × V × Str × Str}
    (h : sortKeyLt x y = true) :
    x.1 < y.1 ∨ x.1 = y.1 ∧
      (x.2.1 < y.2.1 ∨ x.2.1 = y.2.1 ∧
        (x.2.2.1 < y.2.2.1 ∨ x.2.2.1 = y.2.2.1 ∧
          (x.2.2.2.1 < y.2.2.2.1 ∨ x.2.2.2.1 = y.2.2.2.1 ∧
            x.2.2.2.2 < y.2.2.2.2))) := by
  unfold sortKeyLt at h
  rcases pairLt_cases h with h1 | ⟨e1, h⟩
  · exact Or.inl h1
  refine Or.inr ⟨e1, ?_⟩
  rcases pairLt_cases h with h2 | ⟨e2, h⟩
  · exact Or.inl h2
  refine Or.inr ⟨e2, ?_⟩
  rcases pairLt_cases h with h3 | ⟨e3, h⟩
  · exact Or.inl h3
  refine Or.inr ⟨e3, ?_⟩
  rcases pairLt_cases h with h4 | ⟨e4, h⟩
  · exact Or.inl h4
  refine Or.inr ⟨e4, ?_⟩
  simpa [ltBase] using h

theorem sortKey_eq_fields {a b : BuildInfo V} (h : sortKey a = sortKey b) :
    a.package = b.package ∧ a.repository = b.repository ∧ a.version = b.version ∧
      a.revision = b.revision ∧ a.target.value = b.target.value := by
  unfold sortKey at h
  simpa [Prod.mk.injEq] using h

theorem Target.value_inj {t₁ t₂ : Target} (h : t₁.value = t₂.value) : t₁ = t₂ := by
  revert h
  cases t₁ <;> cases t₂ <;> decide

/-- Strict lexicographic order on `(package, repository)` group keys. -/
def groupKeyLt (x y : Str × Str) : Prop := pairLt ltBase x y = true

/-- Strict lexicographic order on `(version, revision)` build keys. -/
def buildKeyLt (x y : V × Str) : Prop := pairLt ltBase x y = true

theorem groupKeyLt_trans {x y z : Str × Str} (h₁ : groupKeyLt x y) (h₂ : groupKeyLt y z) :
    groupKeyLt x z :=
  pairLt_trans (fun a b c => ltBase_trans a b c) x y z h₁ h₂

theorem groupKeyLt_ne {x y : Str × Str} (h : groupKeyLt x y) : x ≠ y := by
  intro e
  subst e
  have := pairLt_irrefl (fun a => ltBase_irrefl a) x
  rw [groupKeyLt, this] at h
  exact Bool.false_ne_true h

theorem buildKeyLt_trans {x y z : V × Str} (h₁ : buildKeyLt x y) (h₂ : buildKeyLt y z) :
    buildKeyLt x z :=
  pairLt_trans (fun a b c => ltBase_trans a b c) x y z h₁ h₂

theorem buildKeyLt_ne {x y : V × Str} (h : buildKeyLt x y) : x ≠ y := by
  intro e
  subst e
  have := pairLt_irrefl (fun a => ltBase_irrefl a) x
  rw [buildKeyLt, this] at h
  exact Bool.false_ne_true h

/-- A `sortedBefore` pair is also ordered by `sortKeyLt` unless the keys agree. -/
theorem sortedBefore_lt_or_eq {a b : BuildInfo V} (h : sortedBefore a b) :
    sortKey a = sortKey b ∨ sortKeyLt (sortKey a) (sortKey b) = true := by
  by_cases he : sortKey a = sortKey b
  · exact Or.inl he
  · rcases sortKeyLt_connex he with h' | h'
    · exact Or.inr h'
    · unfold sortedBefore at h
      rw [h'] at h
      exact absurd h Bool.noConfusion

/-- A `sortedBefore` step either keeps or strictly increases the group key. -/
theorem mono_group {a b : BuildInfo V} (h : sortedBefore a b) :
    buildGroupKey a = buildGroupKey b ∨ groupKeyLt (buildGroupKey a) (buildGroupKey b) := by
  rcases sortedBefore_lt_or_eq h with he | hlt
  · rcases sortKey_eq_fields he with ⟨h1, h2, -⟩
    left
    simp [buildGroupKey, h1, h2]
  · rcases sortKeyLt_decomp hlt with h1 | ⟨e1, h2 | ⟨e2, -⟩⟩
    · exact Or.inr (pairLt_of_lt_left h1)
    · refine Or.inr (pairLt_of_eq_left ?_ ?_)
      · exact e1
      · have h2' : a.repository < b.repository := h2
        simp [buildGroupKey, ltBase, h2']
    · have hp : a.package = b.package := e1
      have hr : a.repository = b.repository := e2
      left
      simp [buildGroupKey, hp, hr]

/-- Within a run of equal group keys, a `sortedBefore` step either keeps or
strictly increases the build key. -/
theorem mono_build {a b : BuildInfo V} (hg : buildGroupKey a = buildGroupKey b)
    (h : sortedBefore a b) :
    buildKey a = buildKey b ∨ buildKeyLt (buildKey a) (buildKey b) := by
  rcases sortedBefore_lt_or_eq h with he | hlt
  · rcases sortKey_eq_fields he with ⟨-, -, h3, h4, -⟩
    left
    simp [buildKey, h3, h4]
  · rcases sortKeyLt_decomp hlt with h1 | ⟨e1, h2 | ⟨e2, h3 | ⟨e3, h4 | ⟨e4, -⟩⟩⟩⟩
    · exfalso
      have hp : a.package = b.package := congrArg Prod.fst hg
      have h1' : a.package < b.package := h1
      exact absurd hp (ne_of_lt h1')
    · exfalso
      have hr : a.repository = b.repository := congrArg Prod.snd hg
      have h2' : a.repository < b.repository := h2
      exact absurd hr (ne_of_lt h2')
    · exact Or.inr (pairLt_of_lt_left h3)
    · refine Or.inr (pairLt_of_eq_left ?_ ?_)
      · exact e3
      · have h4' : a.revision < b.revision := h4
        simp [buildKey, ltBase, h4']
    · have hv : a.version = b.version := e3
      have hr : a.revision = b.revision := e4
      left
      simp [buildKey, hv, hr]

/-- Within a run of equal group and build keys, a `sortedBefore` step either
keeps the target or strictly increases its string value. -/
theorem mono_pass {a b : BuildInfo V} (hg : buildGroupKey a = buildGroupKey b)
    (hb : buildKey a = buildKey b) (h : sortedBefore a b) :
    passKey a = passKey b ∨ (passKey a).value < (passKey b).value := by
  rcases sortedBefore_lt_or_eq h with he | hlt
  · rcases sortKey_eq_fields he with ⟨-, -, -, -, h5⟩
    exact Or.inl (Target.value_inj h5)
  · rcases sortKeyLt_decomp hlt with h1 | ⟨e1, h2 | ⟨e2, h3 | ⟨e3, h4 | ⟨e4, h5⟩⟩⟩⟩
    · exfalso
      have hp : a.package = b.package := congrArg Prod.fst hg
      have h1' : a.package < b.package := h1
      exact absurd hp (ne_of_lt h1')
    · exfalso
      have hr : a.repository = b.repository := congrArg Prod.snd hg
      have h2' : a.repository < b.repository := h2
      exact absurd hr (ne_of_lt h2')
    · exfalso
      have hv : a.version = b.version := congrArg Prod.fst hb
      have h3' : a.version < b.version := h3
      exact absurd hv (ne_of_lt h3')
    · exfalso
      have hr : a.revision = b.revision := congrArg Prod.snd hb
      have h4' : a.revision < b.revision := h4
      exact absurd hr (ne_of_lt h4')
    · exact Or.inr h5

theorem sorted_sortedBefore (l : List (BuildInfo V)) :
    (l.insertionSort sortedBefore).Pairwise sortedBefore :=
  List.sorted_insertionSort sortedBefore l

theorem chunkBy_run_nodup {α κ : Type} (k : α → κ) [DecidableEq κ] {l : List α}
    (hnd : l.Nodup) {p : κ × List α} (hp : p ∈ chunkBy k l) : p.2.Nodup := by
  have h : (((chunkBy k l).map Prod.snd).flatten).Nodup := by
    rw [chunkBy_flatten]; exact hnd
  exact (List.nodup_flatten.mp h).1 p.2 (List.mem_map_of_mem Prod.snd hp)

theorem plan_groups_pairwise (l : List (BuildInfo V)) :
    ((group_builds l).map fun g => (g.package, g.repository)).Pairwise groupKeyLt := by
  have hmap : (group_builds l).map (fun g => (g.package, g.repository)) =
      (chunkBy buildGroupKey (l.insertionSort sortedBefore)).map Prod.fst := by
    unfold group_builds
    rw [List.map_map]
    refine List.map_congr_left ?_
    intro gc _
    simp [mkGroup]
  rw [hmap]
  refine chunkBy_keys_pairwise buildGroupKey ?_ ?_
  · intro x y z h₁ h₂
    exact groupKeyLt_trans h₁ h₂
  · exact (sorted_sortedBefore l).imp mono_group

theorem plan_builds_pairwise {l : List (BuildInfo V)} {g : BuildGroup V}
    (hg : g ∈ group_builds l) :
    (g.builds.map fun b => (b.version, b.revision)).Pairwise buildKeyLt := by
  rcases List.mem_map.mp hg with ⟨gc, hgc, rfl⟩
  have hmap : (mkGroup gc).builds.map (fun b => (b.version, b.revision)) =
      (chunkBy buildKey gc.2).map Prod.fst := by
    simp only [mkGroup, List.map_map]
    refine List.map_congr_left ?_
    intro bc _
    simp [mkBuild]
  rw [hmap]
  refine chunkBy_keys_pairwise buildKey ?_ ?_
  · intro x y z h₁ h₂
    exact buildKeyLt_trans h₁ h₂
  have hPW := chunkBy_run_pairwise buildGroupKey (sorted_sortedBefore l) gc hgc
  have hKey := (chunkBy_runs buildGroupKey (l.insertionSort sortedBefore) gc hgc).2
  refine hPW.imp_of_mem ?_
  intro a b ha hb hab
  refine mono_build ?_ hab
  rw [hKey a ha, hKey b hb]

theorem plan_passes_pairwise {l : List (BuildInfo V)} {g : BuildGroup V}
    (hg : g ∈ group_builds l) {b : Build V} (hb : b ∈ g.builds) :
    (b.passes.map fun p => p.target).Pairwise fun t₁ t₂ => t₁.value < t₂.value := by
  rcases List.mem_map.mp hg with ⟨gc, hgc, rfl⟩
  rcases List.mem_map.mp (show b ∈ (chunkBy buildKey gc.2).map mkBuild from hb)
    with ⟨bc, hbc, rfl⟩
  have hmap : (mkBuild bc).passes.map (fun p => p.target) =
      (chunkBy passKey bc.2).map Prod.fst := by
    simp only [mkBuild, List.map_map]
    refine List.map_congr_left ?_
    intro pc _
    simp [mkPass]
  rw [hmap]
  refine chunkBy_keys_pairwise passKey ?_ ?_
  · intro x y z h₁ h₂
    exact lt_trans h₁ h₂
  have hgPW := chunkBy_run_pairwise buildGroupKey (sorted_sortedBefore l) gc hgc
  have hgKey := (chunkBy_runs buildGroupKey (l.insertionSort sortedBefore) gc hgc).2
  have hbPW := chunkBy_run_pairwise buildKey hgPW bc hbc
  have hbKey := (chunkBy_runs buildKey gc.2 bc hbc).2
  refine hbPW.imp_of_mem ?_
  intro a a' ha ha' hab
  have hga := hgKey a (chunkBy_run_mem buildKey hbc ha)
  have hga' := hgKey a' (chunkBy_run_mem buildKey hbc ha')
  rcases mono_pass (hga.trans hga'.symm) ((hbKey a ha).trans (hbKey a' ha').symm) hab
    with he | hlt
  · exact Or.inl he
  · exact Or.inr hlt

theorem plan_abis_sorted {l : List (BuildInfo V)} {g : BuildGroup V}
    (hg : g ∈ group_builds l) {b : Build V} (hb : b ∈ g.builds) {p : BuildPass}
    (hp : p ∈ b.passes) : p.abis.Pairwise abiBefore ∧ p.abis ≠ [] := by
  rcases List.mem_map.mp hg with ⟨gc, hgc, rfl⟩
  rcases List.mem_map.mp (show b ∈ (chunkBy buildKey gc.2).map mkBuild from hb)
    with ⟨bc, hbc, rfl⟩
  rcases List.mem_map.mp (show p ∈ (chunkBy passKey bc.2).map mkPass from hp)
    with ⟨pc, hpc, rfl⟩
  constructor
  · exact List.sorted_insertionSort abiBefore (pc.2.map BuildInfo.abi)
  · have hne : pc.2 ≠ [] := (chunkBy_runs passKey bc.2 pc hpc).1
    have hlen : (mkPass pc).abis.length = pc.2.length := by
      have hperm := List.perm_insertionSort abiBefore (pc.2.map BuildInfo.abi)
      simp only [mkPass, sortAbis]
      rw [hperm.length_eq, List.length_map]
    intro hcon
    have : pc.2.length = 0 := by rw [← hlen, hcon]; rfl
    exact hne (List.length_eq_zero.mp this)

theorem buildInfo_eq_of_keys {x y : BuildInfo V} (hg : buildGroupKey x = buildGroupKey y)
    (hb : buildKey x = buildKey y) (hp : passKey x = passKey y) (ha : x.abi = y.abi) :
    x = y := by
  cases x
  cases y
  simp only [buildGroupKey, buildKey, passKey, Prod.mk.injEq] at hg hb hp
  simp_all

theorem plan_abis_nodup {l : List (BuildInfo V)} (hnd : l.Nodup) {g : BuildGroup V}
    (hg : g ∈ group_builds l) {b : Build V} (hb : b ∈ g.builds) {p : BuildPass}
    (hp : p ∈ b.passes) : p.abis.Nodup := by
  rcases List.mem_map.mp hg with ⟨gc, hgc, rfl⟩
  rcases List.mem_map.mp (show b ∈ (chunkBy buildKey gc.2).map mkBuild from hb)
    with ⟨bc, hbc, rfl⟩
  rcases List.mem_map.mp (show p ∈ (chunkBy passKey bc.2).map mkPass from hp)
    with ⟨pc, hpc, rfl⟩
  have hs : (l.insertionSort sortedBefore).Nodup :=
    ((List.perm_insertionSort sortedBefore l).nodup_iff).mpr hnd
  have hgND := chunkBy_run_nodup buildGroupKey hs hgc
  have hbND := chunkBy_run_nodup buildKey hgND hbc
  have hpND := chunkBy_run_nodup passKey hbND hpc
  have hgKey := (chunkBy_runs buildGroupKey (l.insertionSort sortedBefore) gc hgc).2
  have hbKey := (chunkBy_runs buildKey gc.2 bc hbc).2
  have hpKey := (chunkBy_runs passKey bc.2 pc hpc).2
  have hmapND : (pc.2.map BuildInfo.abi).Nodup := by
    refine List.Nodup.map_on ?_ hpND
    intro x hx y hy hxy
    have hxb : x ∈ bc.2 := chunkBy_run_mem passKey hpc hx
    have hyb : y ∈ bc.2 := chunkBy_run_mem passKey hpc hy
    have hxg : x ∈ gc.2 := chunkBy_run_mem buildKey hbc hxb
    have hyg : y ∈ gc.2 := chunkBy_run_mem buildKey hbc hyb
    refine buildInfo_eq_of_keys ?_ ?_ ?_ hxy
    · rw [hgKey x hxg, hgKey y hyg]
    · rw [hbKey x hxb, hbKey y hyb]
    · rw [hpKey x hx, hpKey y hy]
  have : (mkPass pc).abis.Perm (pc.2.map BuildInfo.abi) :=
    List.perm_insertionSort abiBefore _
  exact this.nodup_iff.mpr hmapND

/-- `_SatisfactionKey` from `command/build.py`. -/
structure _SatisfactionKey (V : Type) where
  package : Str
  version : V
  target : Str
deriving DecidableEq, Repr

/-- The satisfaction test of `gather_build_infos`: the requested ABI string
is itself in the published set, or the stable-ABI rule applies —
`abi.startswith("cp3") and not abi.endswith(("t", "m")) and "abi3" in abis`. -/
def satisfied (abis : List Str) (abi : Str) : Bool :=
  abis.contains abi ||
    (strStartsWith abi "cp3".toList &&
      !(strEndsWith abi ['t'] || strEndsWith abi ['m']) &&
      abis.contains "abi3".toList)

/-- One entry of a `builds` list of the build-matrix document. -/
structure DesiredBuild : Type where
  revision : Str
  version : Str
  targets : List Str
  abis : List Str
deriving DecidableEq, Repr

/-- One build group of the build-matrix document. -/
structure DesiredGroup : Type where
  package : Str
  repository : Str
  builds : List DesiredBuild
deriving DecidableEq, Repr

/-- Strict left-to-right effectful map over `Except`: the first raised error
aborts with nothing delivered, which is how a strictly consumed Python
generator behaves. -/
def exMapM {ε α β : Type} (f : α → Except ε β) : List α → Except ε (List β)
  | [] => .ok []
  | x :: xs =>
    match f x with
    | .error e => .error e
    | .ok y =>
      match exMapM f xs with
      | .error e => .error e
      | .ok ys => .ok (y :: ys)

/-- `itertools.product(targets, abis)` in iteration order. -/
def productPairs (targets abis : List Str) : List (Str × Str) :=
  targets.flatMap fun t => abis.map fun a => (t, a)

/-- One `(target, abi)` step of `gather_build_infos`: look up the published
ABI set under `_SatisfactionKey(package, version, target)` (the `provided`
function models `provided.get(key, ())`), test satisfaction, and on a gap
construct the `Target` and `Abi` enum members — each raising `ValueError`
(an error result) on an unknown value, `Target` first as in the
`BuildInfo(...)` call. -/
def gatherPair (provided : _SatisfactionKey V → List Str) (pkg repo rev : Str)
    (ver : V) (t a : Str) : Except String (List (BuildInfo V)) :=
  if satisfied (provided ⟨pkg, ver, t⟩) a then .ok []
  else
    match Target.ofStr? t with
    | none => .error "unknown target"
    | some tgt =>
      match Abi.ofStr? a with
      | none => .error "unknown abi"
      | some ab => .ok [⟨pkg, repo, rev, ver, tgt, ab⟩]

/-- One `builds` entry of `gather_build_infos`: parse the declared version
(`packaging.version.parse`, abstracted to `parseVersion`; an invalid version
raises), then walk the target × ABI product. -/
def gatherBuild (parseVersion : Str → Option V)
    (provided : _SatisfactionKey V → List Str) (pkg repo : Str)
    (db : DesiredBuild) : Except String (List (BuildInfo V)) :=
  match parseVersion db.version with
  | none => .error "invalid version"
  | some ver =>
    (exMapM (fun p => gatherPair provided pkg repo db.revision ver p.1 p.2)
      (productPairs db.targets db.abis)).map List.flatten

/-- `gather_build_infos` from `command/build.py`, over the already-parsed
build-matrix document and the satisfaction index. The generator is modelled
as strictly consumed (`group_builds` drains it through `sorted(...)` before
anything downstream observes a value), so a raised error yields no gap list
at all. -/
def gather_build_infos (parseVersion : Str → Option V)
    (provided : _SatisfactionKey V → List Str) (data : List DesiredGroup) :
    Except String (List (BuildInfo V)) :=
  (exMapM (fun g =>
      (exMapM (gatherBuild parseVersion provided g.package g.repository)
        g.builds).map List.flatten)
    data).map List.flatten

/-- A hexadecimal digit, as in `ALLOWED_DIGEST_RE` of `gitutil.py`. -/
def isHexDigit (c : Char) : Bool :=
  c.isDigit || (decide ('a' ≤ c) && decide (c ≤ 'f')) ||
    (decide ('A' ≤ c) && decide (c ≤ 'F'))

/-- The validation performed by `gitutil.revision`: a full match of
`[0-9a-fA-F]{40}|[0-9a-fA-F]{64}` (SHA-1 or SHA-256 hex digest lengths). -/
def revisionValid (s : Str) : Bool :=
  (s.length == 40 || s.length == 64) && s.all isHexDigit

/-- One wheel tag, with the components `expand_wheels` and the sort keys
read: interpreter, ABI and platform strings. -/
structure Tag : Type where
  interpreter : Str
  abi : Str
  platform : Str
deriving DecidableEq, Repr

/-- A `Wheel` of `releases.py` after `__post_init__`: the stored fields plus
the parsed filename components (package, version, tag set). -/
structure Wheel (V : Type) : Type where
  name : Str
  url : Str
  hash : Str
  package : Str
  version : V
  tags : List Tag
deriving DecidableEq, Repr

/-- `_PLATFORM_RE`: the recognized platform-family alternatives, tried left
to right anchored at the start of the string (`re.match`). -/
def platformFamilies : List Str :=
  ["manylinux".toList, "musllinux".toList, "macosx".toList]

/-- `_PLATFORM_RE.match(tag.platform)`: the first family prefix matching at
the start of the raw platform string. -/
def matchPlatform (s : Str) : Option Str :=
  platformFamilies.find? (fun p => strStartsWith s p)

/-- The normalized platform key built by `expand_wheels`:
`"_".join((tag.platform[:match.end()], tag.platform.rpartition("_")[2]))`. -/
def normalizePlatform (s : Str) : Option Str :=
  (matchPlatform s).map fun p => p ++ ['_'] ++ afterLastUnderscore s

/-- `result[key].add(tag.abi)` on the association-list model of the
`defaultdict(set)`: adds the ABI to the set stored under the key, creating
the entry if absent. -/
def addAbi (idx : List (_SatisfactionKey V × List Str)) (key : _SatisfactionKey V)
    (abi : Str) : List (_SatisfactionKey V × List Str) :=
  match idx with
  | [] => [(key, [abi])]
  | (k, v) :: rest =>
    if k = key then (k, if v.contains abi then v else v ++ [abi]) :: rest
    else (k, v) :: addAbi rest key abi

/-- Strict left-to-right effectful fold over `Except`. -/
def exFoldlM {ε σ α : Type} (f : σ → α → Except ε σ) : σ → List α → Except ε σ
  | s, [] => .ok s
  | s, a :: as =>
    match f s a with
    | .error e => .error e
    | .ok s' => exFoldlM f s' as

/-- One tag step of `expand_wheels`: raise `ValueError` (an error result) on
an unrecognized platform, otherwise add the tag's ABI under the normalized
satisfaction key. -/
def expandTag (pkg : Str) (ver : V) (idx : List (_SatisfactionKey V × List Str))
    (tag : Tag) : Except String (List (_SatisfactionKey V × List Str)) :=
  match normalizePlatform tag.platform with
  | none => .error "Unhandled platform tag during expansion"
  | some plat => .ok (addAbi idx ⟨pkg, ver, plat⟩ tag.abi)

/-- `expand_wheels` from `command/build.py`: fold every tag of every wheel
into the satisfaction index; an unrecognized platform aborts the whole
construction and no index is returned. -/
def expand_wheels (ws : List (Wheel V)) :
    Except String (List (_SatisfactionKey V × List Str)) :=
  exFoldlM (fun idx w => exFoldlM (expandTag w.package w.version) idx w.tags) [] ws

/-- `hashlib.algorithms_guaranteed` of CPython. -/
def algorithmsGuaranteed : List Str :=
  ["md5".toList, "sha1".toList, "sha224".toList, "sha256".toList,
    "sha384".toList, "sha512".toList, "blake2b".toList, "blake2s".toList,
    "sha3_224".toList, "sha3_256".toList, "sha3_384".toList, "sha3_512".toList,
    "shake_128".toList, "shake_256".toList]

/-- Python `s.partition(":")[0]`: the text before the first colon, or the
whole string when there is no colon. -/
def beforeColon (s : Str) : Str := s.takeWhile (· != ':')

/-- Python `s.partition(":")[2]`: the text after the first colon, or the
empty string when there is no colon. -/
def afterColon (s : Str) : Str := (s.dropWhile (· != ':')).drop 1

/-- One release asset record of the GitHub feed. -/
structure Asset : Type where
  name : Str
  browser_download_url : Str
  digest : Str
  created_at : Str
deriving DecidableEq, Repr

/-- One release of the feed; only its asset list matters to `parse`. -/
structure Release : Type where
  assets : List Asset
deriving DecidableEq, Repr

/-- One asset step of `parse` from `releases.py`: skip names without the
`.whl` suffix, skip (and report) unrecognized digest algorithms, and skip
(and report) assets whose `Wheel(...)` construction raises `ValueError`.
`wp` abstracts the external `packaging.utils.parse_wheel_filename`; `tsOk`
abstracts whether `datetime.fromisoformat(created_at)` succeeds. -/
def parseAsset (wp : Str → Option (Str × V × List Tag)) (tsOk : Str → Bool)
    (a : Asset) : Option (Wheel V) :=
  if !strEndsWith a.name ".whl".toList then none
  else if !algorithmsGuaranteed.contains (beforeColon a.digest) then none
  else if !tsOk a.created_at then none
  else
    match wp a.name with
    | none => none
    | some (pkg, ver, tags) =>
      some ⟨a.name, a.browser_download_url,
        beforeColon a.digest ++ ['='] ++ afterColon a.digest, pkg, ver, tags⟩

/-- `packages[wheel.package].append(wheel)` on the association-list model of
the `defaultdict(list)`. -/
def addWheel (m : List (Str × List (Wheel V))) (w : Wheel V) :
    List (Str × List (Wheel V)) :=
  match m with
  | [] => [(w.package, [w])]
  | (k, ws) :: rest =>
    if k = w.package then (k, ws ++ [w]) :: rest
    else (k, ws) :: addWheel rest w

/-- `parse` from `releases.py`: group the well-formed `.whl` assets of every
release by package; a bad asset is skipped (reported to stderr, not
modelled) and processing continues. -/
def parse (wp : Str → Option (Str × V × List Tag)) (tsOk : Str → Bool)
    (data : List Release) : List (Str × List (Wheel V)) :=
  data.foldl (fun m rel =>
    rel.assets.foldl (fun m a =>
      match parseAsset wp tsOk a with
      | some w => addWheel m w
      | none => m) m) []

/-- `_sort_tag` from `releases.py`. The loop body assigns
`version = version[:index]` before computing `variant = version[index:]`,
so `variant` is sliced from the already-truncated string; the embedding
reproduces that order faithfully. `none` models the `ValueError`/`IndexError`
of `int(version[0])` or `int(version[1:])` on a malformed interpreter. -/
def _sort_tag (tag : Tag) : Option (Str × Nat × Nat × Str × Str) :=
  let interpreter := tag.interpreter.take 2
  let version0 := tag.interpreter.drop 2
  let cut :=
    match version0.findIdx? (fun c => !c.isDigit) with
    | none => (version0, ([] : Str))
    | some i => (version0.take i, (version0.take i).drop i)
  match strToNat? (cut.1.take 1), strToNat? (cut.1.drop 1) with
  | some major, some minor => some (interpreter, major, minor, cut.2, tag.abi)
  | _, _ => none

/-- CPython tuple `<` on per-tag sort keys (five slots, `str`/`int`). -/
def tagKeyLt (x y : Str × Nat × Nat × Str × Str) : Bool :=
  pairLt (pairLt (pairLt (pairLt ltBase))) x y

/-- CPython `<` on two tuples of per-tag sort keys: compare slot by slot
(equality first), a strict prefix being smaller. -/
def tagKeysLt : List (Str × Nat × Nat × Str × Str) →
    List (Str × Nat × Nat × Str × Str) → Bool
  | _, [] => false
  | [], _ :: _ => true
  | x :: xs, y :: ys => if x = y then tagKeysLt xs ys else tagKeyLt x y

/-- The `_sort_key` tuple stored by `Wheel.__post_init__`:
`(package, _InverseSorter(version), tuple(sorted(set(map(_sort_tag, tags)))))`,
with the third slot kept as an arbitrary tag-key list. -/
structure WheelSortKey (V : Type) : Type where
  package : Str
  version : V
  tagKeys : List (Str × Nat × Nat × Str × Str)
deriving DecidableEq, Repr

/-- `Wheel.__lt__` from `releases.py`: CPython tuple comparison of the two
`_sort_key` tuples. The second slot holds `_InverseSorter` wrappers, whose
`__eq__` tests version equality and whose `__lt__(self, other)` returns
`other.obj <= self.obj`. -/
def wheelLt (k₁ k₂ : WheelSortKey V) : Bool :=
  if k₁.package = k₂.package then
    if k₁.version = k₂.version then tagKeysLt k₁.tagKeys k₂.tagKeys
    else decide (k₂.version ≤ k₁.version)
  else decide (k₁.package < k₂.package)

theorem exMapM_error_of_mem {ε α β : Type} {f : α → Except ε β} {l : List α}
    {x : α} (hx : x ∈ l) {e : ε} (hf : f x = .error e) :
    ∃ e', exMapM f l = .error e' := by
  induction l with
  | nil => cases hx
  | cons a as ih =>
    rcases List.mem_cons.mp hx with rfl | hx'
    · exact ⟨e, by simp [exMapM, hf]⟩
    · cases hfa : f a with
      | error e'' => exact ⟨e'', by simp [exMapM, hfa]⟩
      | ok y =>
        rcases ih hx' with ⟨e', he'⟩
        exact ⟨e', by simp [exMapM, hfa, he']⟩

theorem exFoldlM_error_of_mem {ε σ α : Type} {f : σ → α → Except ε σ} {l : List α}
    {x : α} (hx : x ∈ l) (hbad : ∀ s, ∃ e, f s x = .error e) :
    ∀ s, ∃ e', exFoldlM f s l = .error e' := by
  induction l with
  | nil => cases hx
  | cons a as ih =>
    intro s
    rcases List.mem_cons.mp hx with rfl | hx'
    · rcases hbad s with ⟨e, he⟩
      exact ⟨e, by simp [exFoldlM, he]⟩
    · cases hfa : f s a with
      | error e'' => exact ⟨e'', by simp [exFoldlM, hfa]⟩
      | ok s' =>
        rcases ih hx' s' with ⟨e', he'⟩
        exact ⟨e', by simp [exFoldlM, hfa, he']⟩

theorem except_map_error {ε α β : Type} {x : Except ε α} {e : ε} (h : x = .error e)
    (fn : α → β) : x.map fn = .error e := by
  rw [h]
  rfl

/-- Claim C5: an unrecognized platform prefix on any tag of any wheel makes
`expand_wheels` fail with an error; the tag is not skipped and no partial
index is returned (an error result carries no index at all). -/
theorem expand_wheels_error_on_unhandled_platform (ws : List (Wheel V))
    (h : ∃ w ∈ ws, ∃ tg ∈ w.tags, matchPlatform tg.platform = none) :
    ∃ e, expand_wheels ws = .error e := by
  obtain ⟨w, hw, tg, htg, hm⟩ := h
  refine exFoldlM_error_of_mem hw ?_ []
  intro idx
  refine exFoldlM_error_of_mem htg ?_ idx
  intro idx'
  exact ⟨"Unhandled platform tag during expansion",
    by simp [expandTag, normalizePlatform, hm]⟩

/-- Claim C10: each `Target` enumeration value is a fixed point of the
platform-normalization rule, so the key `expand_wheels` stores for a wheel
of that family and architecture is literally the `_SatisfactionKey` that
`gather_build_infos` looks up for the raw desired-target string. -/
theorem target_values_normalization_fixed :
    (∀ t : Target, normalizePlatform t.value = some t.value) ∧
    ∀ (pkg : Str) (ver : V) (idx : List (_SatisfactionKey V × List Str))
      (i ab : Str) (t : Target),
      expandTag pkg ver idx ⟨i, ab, t.value⟩ = .ok (addAbi idx ⟨pkg, ver, t.value⟩ ab) := by
  have hfix : ∀ t : Target, normalizePlatform t.value = some t.value := by
    intro t
    cases t <;> decide
  refine ⟨hfix, ?_⟩
  intro pkg ver idx i ab t
  simp [expandTag, hfix t]

theorem gatherBuild_error_of_bad_version {parseVersion : Str → Option V}
    {provided : _SatisfactionKey V → List Str} {pkg repo : Str} {db : DesiredBuild}
    (hv : parseVersion db.version = none) :
    gatherBuild parseVersion provided pkg repo db = .error "invalid version" := by
  simp [gatherBuild, hv]

theorem gather_error_of_mem_bad_build {parseVersion : Str → Option V}
    {provided : _SatisfactionKey V → List Str} {data : List DesiredGroup}
    {g : DesiredGroup} (hg : g ∈ data) {db : DesiredBuild} (hdb : db ∈ g.builds)
    {e : String} (hb : gatherBuild parseVersion provided g.package g.repository db = .error e) :
    ∃ e', gather_build_infos parseVersion provided data = .error e' := by
  rcases exMapM_error_of_mem hdb hb with ⟨e₁, he₁⟩
  have hgroup : (exMapM (gatherBuild parseVersion provided g.package g.repository)
      g.builds).map List.flatten = .error e₁ := except_map_error he₁ _
  rcases @exMapM_error_of_mem String DesiredGroup (List (BuildInfo V))
      (fun g => (exMapM (gatherBuild parseVersion provided g.package g.repository)
        g.builds).map List.flatten)
      data g hg e₁ hgroup with ⟨e₂, he₂⟩
  exact ⟨e₂, except_map_error he₂ _⟩

/-- Amended claim C4: a desired-matrix entry whose version string does not
parse always aborts resolution with an error and no gap list; so does an
entry with an unsatisfied `(target, abi)` pair whose target or ABI is not a
member of the known enumerations. (Revision strings are not examined by the
resolver, and a malformed target/ABI whose every pair is satisfied is not
examined either — see the counterexample.) -/
theorem gather_fatal_on_bad_entry (parseVersion : Str → Option V)
    (provided : _SatisfactionKey V → List Str) (data : List DesiredGroup)
    (h : (∃ g ∈ data, ∃ db ∈ g.builds, parseVersion db.version = none) ∨
      (∃ g ∈ data, ∃ db ∈ g.builds, ∃ ver, parseVersion db.version = some ver ∧
        ∃ t ∈ db.targets, ∃ a ∈ db.abis,
          satisfied (provided ⟨g.package, ver, t⟩) a = false ∧
          (Target.ofStr? t = none ∨ Abi.ofStr? a = none))) :
    ∃ e, gather_build_infos parseVersion provided data = .error e := by
  rcases h with ⟨g, hg, db, hdb, hv⟩ |
    ⟨g, hg, db, hdb, ver, hv, t, ht, a, ha, hsat, hbad⟩
  · exact gather_error_of_mem_bad_build hg hdb (gatherBuild_error_of_bad_version hv)
  · have hpair : ∃ e, gatherPair provided g.package g.repository db.revision ver t a =
        .error e := by
      cases hT : Target.ofStr? t with
      | none => exact ⟨"unknown target", by simp [gatherPair, hsat, hT]⟩
      | some tgt =>
        cases hA : Abi.ofStr? a with
        | none => exact ⟨"unknown abi", by simp [gatherPair, hsat, hT, hA]⟩
        | some ab =>
          rcases hbad with hbad | hbad
          · rw [hT] at hbad
            cases hbad
          · rw [hA] at hbad
            cases hbad
    rcases hpair with ⟨e, he⟩
    have hmem : (t, a) ∈ productPairs db.targets db.abis :=
      List.mem_flatMap.mpr ⟨t, ht, List.mem_map.mpr ⟨a, ha, rfl⟩⟩
    rcases @exMapM_error_of_mem String (Str × Str) (List (BuildInfo V))
        (fun p => gatherPair provided g.package g.repository db.revision ver p.1 p.2)
        (productPairs db.targets db.abis) (t, a) hmem e he with ⟨e₁, he₁⟩
    have hbuild : gatherBuild parseVersion provided g.package g.repository db = .error e₁ := by
      rw [gatherBuild, hv]
      exact except_map_error he₁ _
    exact gather_error_of_mem_bad_build hg hdb hbuild

/-- The gaps `gather_build_infos` emits for one valid entry, characterized
pair by pair: a `BuildInfo` for exactly the unsatisfied pairs. -/
def gapsOfPairs (provided : _SatisfactionKey V → List Str) (pkg repo rev : Str)
    (ver : V) (pairs : List (Str × Str)) : List (BuildInfo V) :=
  pairs.filterMap fun p =>
    match Target.ofStr? p.1, Abi.ofStr? p.2 with
    | some tgt, some ab =>
      if satisfied (provided ⟨pkg, ver, p.1⟩) p.2 then none
      else some ⟨pkg, repo, rev, ver, tgt, ab⟩
    | _, _ => none

theorem exMapM_gatherPair_ok (provided : _SatisfactionKey V → List Str)
    (pkg repo rev : Str) (ver : V) (pairs : List (Str × Str))
    (h : ∀ p ∈ pairs, (Target.ofStr? p.1).isSome ∧ (Abi.ofStr? p.2).isSome) :
    ∃ ys, exMapM (fun p => gatherPair provided pkg repo rev ver p.1 p.2) pairs = .ok ys ∧
      ys.flatten = gapsOfPairs provided pkg repo rev ver pairs := by
  induction pairs with
  | nil => exact ⟨[], rfl, rfl⟩
  | cons p ps ih =>
    obtain ⟨h1, h2⟩ := h p (List.mem_cons_self p ps)
    obtain ⟨tgt, hT⟩ := Option.isSome_iff_exists.mp h1
    obtain ⟨ab, hA⟩ := Option.isSome_iff_exists.mp h2
    obtain ⟨ys, hys, hflat⟩ := ih (fun q hq => h q (List.mem_cons_of_mem _ hq))
    by_cases hs : satisfied (provided ⟨pkg, ver, p.1⟩) p.2 = true
    · refine ⟨[] :: ys, ?_, ?_⟩
      · have hhead : gatherPair provided pkg repo rev ver p.1 p.2 = Except.ok [] := by
          simp [gatherPair, hs]
        simp only [exMapM]
        rw [hhead, hys]
      · have hgap : gapsOfPairs provided pkg repo rev ver (p :: ps) =
            gapsOfPairs provided pkg repo rev ver ps := by
          simp only [gapsOfPairs, List.filterMap_cons, hT, hA, if_pos hs]
        rw [hgap, ← hflat, List.flatten_cons, List.nil_append]
    · refine ⟨[⟨pkg, repo, rev, ver, tgt, ab⟩] :: ys, ?_, ?_⟩
      · have hhead : gatherPair provided pkg repo rev ver p.1 p.2 =
            Except.ok [⟨pkg, repo, rev, ver, tgt, ab⟩] := by
          simp [gatherPair, hs, hT, hA]
        simp only [exMapM]
        rw [hhead, hys]
      · have hgap : gapsOfPairs provided pkg repo rev ver (p :: ps) =
            ⟨pkg, repo, rev, ver, tgt, ab⟩ :: gapsOfPairs provided pkg repo rev ver ps := by
          simp only [gapsOfPairs, List.filterMap_cons, hT, hA, if_neg hs]
        rw [hgap, ← hflat, List.flatten_cons, List.singleton_append]

theorem except_map_ok {ε α β : Type} {x : Except ε α} {v : α} (h : x = .ok v)
    (fn : α → β) : x.map fn = .ok (fn v) := by
  rw [h]
  rfl

theorem exMapM_singleton {ε α β : Type} (f : α → Except ε β) (x : α) {y : β}
    (h : f x = .ok y) : exMapM f [x] = .ok [y] := by
  unfold exMapM
  rw [h]
  rfl

theorem gather_single_ok (parseVersion : Str → Option V)
    (provided : _SatisfactionKey V → List Str) (pkg repo rev vs : Str) (ver : V)
    (targets abis : List Str) (hv : parseVersion vs = some ver)
    (hts : ∀ t ∈ targets, (Target.ofStr? t).isSome)
    (has : ∀ a ∈ abis, (Abi.ofStr? a).isSome) :
    gather_build_infos parseVersion provided
        [⟨pkg, repo, [⟨rev, vs, targets, abis⟩]⟩] =
      .ok (gapsOfPairs provided pkg repo rev ver (productPairs targets abis)) := by
  have hpairs : ∀ p ∈ productPairs targets abis,
      (Target.ofStr? p.1).isSome ∧ (Abi.ofStr? p.2).isSome := by
    intro p hp
    rcases List.mem_flatMap.mp hp with ⟨t, ht, hmap⟩
    rcases List.mem_map.mp hmap with ⟨a, ha, rfl⟩
    exact ⟨hts t ht, has a ha⟩
  obtain ⟨ys, hys, hflat⟩ :=
    exMapM_gatherPair_ok provided pkg repo rev ver (productPairs targets abis) hpairs
  set gaps := gapsOfPairs provided pkg repo rev ver (productPairs targets abis) with hgaps
  have hbuild : gatherBuild parseVersion provided pkg repo ⟨rev, vs, targets, abis⟩ =
      .ok gaps := by
    unfold gatherBuild
    show (match parseVersion vs with
      | none => Except.error "invalid version"
      | some ver =>
        (exMapM (fun p : Str × Str => gatherPair provided pkg repo rev ver p.1 p.2)
          (productPairs targets abis)).map List.flatten) = _
    rw [hv]
    show (exMapM (fun p : Str × Str => gatherPair provided pkg repo rev ver p.1 p.2)
      (productPairs targets abis)).map List.flatten = _
    rw [except_map_ok hys]
    rw [hflat]
  have h1 : exMapM (gatherBuild parseVersion provided pkg repo)
      [⟨rev, vs, targets, abis⟩] = .ok [gaps] :=
    exMapM_singleton _ _ hbuild
  have hg : (exMapM (gatherBuild parseVersion provided pkg repo)
      [(⟨rev, vs, targets, abis⟩ : DesiredBuild)]).map List.flatten = .ok gaps := by
    rw [except_map_ok h1]
    simp
  have h2 : exMapM (fun g : DesiredGroup =>
      (exMapM (gatherBuild parseVersion provided g.package g.repository)
        g.builds).map List.flatten)
      [⟨pkg, repo, [⟨rev, vs, targets, abis⟩]⟩] = .ok [gaps] :=
    exMapM_singleton
      (fun g : DesiredGroup =>
        (exMapM (gatherBuild parseVersion provided g.package g.repository)
          g.builds).map List.flatten)
      ⟨pkg, repo, [⟨rev, vs, targets, abis⟩]⟩ hg
  show (exMapM (fun g : DesiredGroup =>
      (exMapM (gatherBuild parseVersion provided g.package g.repository)
        g.builds).map List.flatten)
      [⟨pkg, repo, [⟨rev, vs, targets, abis⟩]⟩]).map List.flatten = .ok gaps
  rw [except_map_ok h2]
  simp

theorem mem_gapsOfPairs_iff (provided : _SatisfactionKey V → List Str)
    (pkg repo rev : Str) (ver : V) (targets abis : List Str) (t a : Str)
    (tgt : Target) (ab : Abi) (htm : t ∈ targets) (ham : a ∈ abis)
    (hT : Target.ofStr? t = some tgt) (hA : Abi.ofStr? a = some ab) :
    (⟨pkg, repo, rev, ver, tgt, ab⟩ : BuildInfo V) ∈
        gapsOfPairs provided pkg repo rev ver (productPairs targets abis) ↔
      satisfied (provided ⟨pkg, ver, t⟩) a = false := by
  constructor
  · intro hmem
    rcases List.mem_filterMap.mp hmem with ⟨p, _, hfp⟩
    cases hT' : Target.ofStr? p.1 with
    | none =>
      rw [hT'] at hfp
      exact absurd hfp (by simp)
    | some tgt' =>
      cases hA' : Abi.ofStr? p.2 with
      | none =>
        rw [hT', hA'] at hfp
        exact absurd hfp (by simp)
      | some ab' =>
        rw [hT', hA'] at hfp
        have hfp' : (if satisfied (provided ⟨pkg, ver, p.1⟩) p.2 then none
            else some (⟨pkg, repo, rev, ver, tgt', ab'⟩ : BuildInfo V)) =
            some (⟨pkg, repo, rev, ver, tgt, ab⟩ : BuildInfo V) := hfp
        by_cases hs : satisfied (provided ⟨pkg, ver, p.1⟩) p.2 = true
        · rw [if_pos hs] at hfp'
          exact absurd hfp' (by simp)
        · rw [if_neg hs] at hfp'
          have hinj := Option.some.inj hfp'
          have htgt : tgt' = tgt := congrArg BuildInfo.target hinj
          have hab : ab' = ab := congrArg BuildInfo.abi hinj
          have hp1 : p.1 = t := by
            rw [← targetValue_of_ofStr hT', htgt, targetValue_of_ofStr hT]
          have hp2 : p.2 = a := by
            rw [← abiValue_of_ofStr hA', hab, abiValue_of_ofStr hA]
          rw [hp1, hp2] at hs
          exact Bool.not_eq_true _ ▸ hs
  · intro hsf
    refine List.mem_filterMap.mpr
      ⟨(t, a), List.mem_flatMap.mpr ⟨t, htm, List.mem_map.mpr ⟨a, ham, rfl⟩⟩, ?_⟩
    simp [hT, hA, hsf]

theorem satisfied_iff (abis : List Str) (a : Str) :
    satisfied abis a = true ↔
      (a ∈ abis ∨ (strStartsWith a "cp3".toList = true ∧ strEndsWith a ['t'] = false ∧
        strEndsWith a ['m'] = false ∧ "abi3".toList ∈ abis)) := by
  simp only [satisfied, Bool.or_eq_true, Bool.and_eq_true, Bool.not_eq_true',
    Bool.or_eq_false_iff, List.elem_eq_mem, decide_eq_true_eq]
  tauto

/-- Claim C1: for a desired entry whose version parses and whose target/ABI
strings are all enum members, the resolver succeeds and emits the gap unit
of a `(target, abi)` pair exactly when the pair is unsatisfied — the
requested ABI is not in the published set under
`_SatisfactionKey(package, version, target)` and the stable-ABI rule
(`cp3*`, no `"t"`/`"m"` suffix, `"abi3"` published) does not apply. In
particular an ABI ending in `"t"` is a gap whenever it is not itself
published, `"abi3"` notwithstanding. -/
theorem gather_gap_iff_unsatisfied (parseVersion : Str → Option V)
    (provided : _SatisfactionKey V → List Str) (pkg repo rev vs : Str) (ver : V)
    (targets abis : List Str) (t a : Str) (tgt : Target) (ab : Abi)
    (hv : parseVersion vs = some ver)
    (hts : ∀ t' ∈ targets, (Target.ofStr? t').isSome)
    (has : ∀ a' ∈ abis, (Abi.ofStr? a').isSome)
    (htm : t ∈ targets) (ham : a ∈ abis)
    (hT : Target.ofStr? t = some tgt) (hA : Abi.ofStr? a = some ab) :
    ∃ gaps,
      gather_build_infos parseVersion provided
          [⟨pkg, repo, [⟨rev, vs, targets, abis⟩]⟩] = .ok gaps ∧
      ((⟨pkg, repo, rev, ver, tgt, ab⟩ : BuildInfo V) ∈ gaps ↔
        ¬ (a ∈ provided ⟨pkg, ver, t⟩ ∨
          (strStartsWith a "cp3".toList = true ∧ strEndsWith a ['t'] = false ∧
            strEndsWith a ['m'] = false ∧ "abi3".toList ∈ provided ⟨pkg, ver, t⟩))) ∧
      (strEndsWith a ['t'] = true →
        ((⟨pkg, repo, rev, ver, tgt, ab⟩ : BuildInfo V) ∈ gaps ↔
          a ∉ provided ⟨pkg, ver, t⟩)) := by
  refine ⟨_, gather_single_ok parseVersion provided pkg repo rev vs ver targets abis
    hv hts has, ?_, ?_⟩
  · rw [mem_gapsOfPairs_iff provided pkg repo rev ver targets abis t a tgt ab
      htm ham hT hA]
    rw [← satisfied_iff]
    constructor
    · intro hf hc
      rw [hf] at hc
      exact Bool.noConfusion hc
    · intro hn
      rcases Bool.eq_false_or_eq_true (satisfied (provided ⟨pkg, ver, t⟩) a) with h | h
      · exact absurd h hn
      · exact h
  · intro hET
    rw [mem_gapsOfPairs_iff provided pkg repo rev ver targets abis t a tgt ab
      htm ham hT hA]
    constructor
    · intro hf hmem
      have : satisfied (provided ⟨pkg, ver, t⟩) a = true :=
        (satisfied_iff _ _).mpr (Or.inl hmem)
      rw [this] at hf
      exact Bool.noConfusion hf
    · intro hnm
      rcases Bool.eq_false_or_eq_true (satisfied (provided ⟨pkg, ver, t⟩) a) with h | h
      · rcases (satisfied_iff _ _).mp h with hmem | ⟨-, hnoT, -, -⟩
        · exact absurd hmem hnm
        · rw [hET] at hnoT
          exact absurd hnoT Bool.noConfusion
      · exact h

theorem parseAsset_none_of_bad (wp : Str → Option (Str × V × List Tag))
    (tsOk : Str → Bool) (a : Asset)
    (hb : algorithmsGuaranteed.contains (beforeColon a.digest) = false ∨
      wp a.name = none) :
    parseAsset wp tsOk a = none := by
  unfold parseAsset
  split
  · rfl
  · split
    · rfl
    · rename_i hAlgo
      rcases hb with hb | hb
      · exfalso
        rw [hb] at hAlgo
        exact hAlgo rfl
      · split
        · rfl
        · rw [hb]

/-- Claim C6: a release asset whose digest algorithm is not a recognized
hash algorithm, or whose `.whl` filename does not parse as a wheel filename,
is skipped by `parse`: the result is exactly the result of parsing the same
feed with that asset removed, so every other well-formed asset's wheel is
still returned and one bad asset never aborts processing. -/
theorem parse_skips_bad_asset (wp : Str → Option (Str × V × List Tag))
    (tsOk : Str → Bool) (pre post : List Release) (r₁ r₂ : List Asset) (a : Asset)
    (hbad : algorithmsGuaranteed.contains (beforeColon a.digest) = false ∨
      wp a.name = none) :
    parse wp tsOk (pre ++ Release.mk (r₁ ++ a :: r₂) :: post) =
      parse wp tsOk (pre ++ Release.mk (r₁ ++ r₂) :: post) := by
  have hnone := parseAsset_none_of_bad wp tsOk a hbad
  unfold parse
  rw [List.foldl_append, List.foldl_append, List.foldl_cons, List.foldl_cons]
  congr 1
  show (r₁ ++ a :: r₂).foldl _ _ = (r₁ ++ r₂).foldl _ _
  rw [List.foldl_append, List.foldl_append, List.foldl_cons]
  congr 1
  simp [hnone]

theorem tagKeyLt_irrefl (x : Str × Nat × Nat × Str × Str) : tagKeyLt x x = false :=
  pairLt_irrefl (pairLt_irrefl (pairLt_irrefl (pairLt_irrefl ltBase_irrefl))) x

theorem tagKeyLt_asymm {x y : Str × Nat × Nat × Str × Str}
    (h : tagKeyLt x y = true) : tagKeyLt y x = false :=
  pairLt_asymm (pairLt_asymm (pairLt_asymm (pairLt_asymm ltBase_asymm))) x y h

theorem tagKeysLt_irrefl (l : List (Str × Nat × Nat × Str × Str)) :
    tagKeysLt l l = false := by
  induction l with
  | nil => rfl
  | cons x xs ih => simp [tagKeysLt, ih]

theorem tagKeysLt_asymm {l₁ l₂ : List (Str × Nat × Nat × Str × Str)}
    (h : tagKeysLt l₁ l₂ = true) : tagKeysLt l₂ l₁ = false := by
  induction l₁ generalizing l₂ with
  | nil =>
    cases l₂ with
    | nil => exact absurd h Bool.noConfusion
    | cons y ys => rfl
  | cons x xs ih =>
    cases l₂ with
    | nil => exact absurd h Bool.noConfusion
    | cons y ys =>
      rw [tagKeysLt] at h ⊢
      by_cases e : x = y
      · rw [if_pos e] at h
        rw [if_pos e.symm]
        exact ih h
      · rw [if_neg e] at h
        rw [if_neg (fun q => e q.symm)]
        exact tagKeyLt_asymm h

/-- Claim C7: the release-listing comparator — package ascending, version
descending through the `_InverseSorter` wrapper, then the sorted per-tag key
tuple — is irreflexive and asymmetric, hence a strict weak ordering as used
by Python's sort. (The wrapper's `__lt__` uses `<=`, but tuple comparison
tests `==` first, and version equality coincides with order-equivalence, so
no reflexive pair ever reaches the `<=`.) -/
theorem wheelLt_strict_weak_order :
    (∀ k : WheelSortKey V, wheelLt k k = false) ∧
      ∀ k₁ k₂ : WheelSortKey V, wheelLt k₁ k₂ = true → wheelLt k₂ k₁ = false := by
  constructor
  · intro k
    simp [wheelLt, tagKeysLt_irrefl]
  · intro k₁ k₂ h
    unfold wheelLt at h ⊢
    by_cases hp : k₁.package = k₂.package
    · rw [if_pos hp] at h
      rw [if_pos hp.symm]
      by_cases hv : k₁.version = k₂.version
      · rw [if_pos hv] at h
        rw [if_pos hv.symm]
        exact tagKeysLt_asymm h
      · rw [if_neg hv] at h
        rw [if_neg (fun q => hv q.symm)]
        simp only [decide_eq_true_eq] at h
        simp only [decide_eq_false_iff_not]
        intro hle
        exact hv (le_antisymm hle h)
    · rw [if_neg hp] at h
      rw [if_neg (fun q => hp q.symm)]
      simp only [decide_eq_true_eq] at h
      simp only [decide_eq_false_iff_not]
      exact not_lt_of_gt h

/-- Claim C8 (the code's behavior at the failing input): `_sort_tag` from
`releases.py` truncates `version` before slicing `variant` out of it, so the
variant slot of the key for a free-threaded interpreter tag such as
`cp313t` is the empty string — identical to the variant slot of the
corresponding non-suffixed `cp313` tag, not `"t"`. -/
theorem sort_tag_variant_always_empty :
    _sort_tag ⟨"cp313t".toList, "cp313t".toList, "manylinux_armv7l".toList⟩ =
      some ("cp".toList, 3, 13, [], "cp313t".toList) ∧
    _sort_tag ⟨"cp313".toList, "cp313".toList, "manylinux_armv7l".toList⟩ =
      some ("cp".toList, 3, 13, [], "cp313".toList) := by
  constructor
  · decide
  · decide

theorem buildInfo_tuple_inj :
    Function.Injective (BuildInfo.tuple : BuildInfo V → Str × Str × V × Str × Target × Abi) := by
  intro x y h
  cases x
  cases y
  simp only [BuildInfo.tuple, Prod.mk.injEq] at h
  obtain ⟨e1, e2, e3, e4, e5, e6⟩ := h
  simp_all

/-- Amended claim C2: for a duplicate-free GapUnit sequence, flattening the
ExecutionPlan back into `(package, repository, version, revision, target,
abi)` tuples yields exactly the input set — the flattened plan is
duplicate-free and a permutation of the input tuples. (For inputs with
repeated GapUnits the flattened plan repeats them — see the
counterexample — so flattening is in general a permutation of the input
multiset.) -/
theorem flattenPlan_exact (l : List (BuildInfo V)) (hnd : l.Nodup) :
    (flattenPlan (group_builds l)).Nodup ∧
      List.Perm (flattenPlan (group_builds l)) (l.map BuildInfo.tuple) := by
  have hperm := flattenPlan_perm l
  refine ⟨?_, hperm⟩
  have hmap : (l.map BuildInfo.tuple).Nodup := hnd.map buildInfo_tuple_inj
  exact hperm.nodup_iff.mpr hmap

/-- A duplicated gap unit, input of the counterexample to claim C2. -/
def gapUnitA : BuildInfo Nat :=
  ⟨"p".toList, "r".toList, List.replicate 40 'a', 1, .MANYLINUX_ARM7, .CP310⟩

/-- Counterexample to claim C2 as stated: feeding the same GapUnit twice
makes the flattened plan repeat its tuple, so "no tuple appears twice"
fails for arbitrary finite GapUnit sequences. -/
theorem flattenPlan_dup_counterexample :
    ¬ (flattenPlan (group_builds [gapUnitA, gapUnitA])).Nodup := by decide

/-- Amended claim C3: for a duplicate-free GapUnit sequence, within each
Group the Builds are strictly ascending by `(version, revision)`, within
each Build the Passes are strictly ascending by target identity (the
target's string value), and each Pass's ABI list is duplicate-free and
strictly ascending in the `Abi.parts` order (so in particular sorted with
`cp312 < cp312t`). (With repeated input GapUnits a pass's ABI list repeats
an ABI — see the counterexample; the orderings themselves hold for every
input.) -/
theorem plan_ordering_invariants (l : List (BuildInfo V)) (hnd : l.Nodup) :
    ∀ g ∈ group_builds l,
      g.builds.Pairwise (fun b₁ b₂ =>
        buildKeyLt (b₁.version, b₁.revision) (b₂.version, b₂.revision)) ∧
      ∀ b ∈ g.builds,
        b.passes.Pairwise (fun p₁ p₂ => p₁.target.value < p₂.target.value) ∧
        ∀ p ∈ b.passes,
          p.abis.Nodup ∧ p.abis.Pairwise (fun a₁ a₂ => Abi.lt a₁ a₂ = true) := by
  intro g hg
  have hbk := List.pairwise_map.mp (plan_builds_pairwise hg)
  refine ⟨hbk, ?_⟩
  intro b hb
  have hpk := List.pairwise_map.mp (plan_passes_pairwise hg hb)
  refine ⟨hpk, ?_⟩
  intro p hp
  have hsorted := (plan_abis_sorted hg hb hp).1
  have hndp := plan_abis_nodup hnd hg hb hp
  refine ⟨hndp, ?_⟩
  have hcomb := hsorted.and (hndp : p.abis.Pairwise (· ≠ ·))
  refine hcomb.imp ?_
  intro a₁ a₂ h'
  rcases h' with ⟨hab, hne⟩
  rcases Abi.lt_connex hne with h | h
  · exact h
  · have hab' : Abi.lt a₂ a₁ = false := hab
    rw [h] at hab'
    exact absurd hab' Bool.noConfusion

/-- A duplicated gap unit, input of the counterexample to claim C3. -/
def gapUnitB : BuildInfo Nat :=
  ⟨"q".toList, "s".toList, List.replicate 40 'b', 2, .MACOS, .CP312⟩

/-- Counterexample to claim C3 as stated: with a repeated GapUnit the
produced Pass carries the same ABI twice, so "each Pass's ABI list is
duplicate-free" fails for arbitrary finite GapUnit sequences. -/
theorem plan_dup_abis_counterexample :
    ∃ g ∈ group_builds [gapUnitB, gapUnitB], ∃ b ∈ g.builds, ∃ p ∈ b.passes,
      ¬ p.abis.Nodup := by decide

/-- Claim C9: the per-Pass `(package, repository, version, revision, target)`
tuples of the plan are pairwise distinct and range over exactly the distinct
five-field tuples of the input GapUnits, so their count — one per Pass —
equals the number of distinct such tuples among the inputs: grouping never
splits one tuple's ABIs over two Passes and never merges different tuples
into one Pass. -/
theorem passTuples_exact (l : List (BuildInfo V)) :
    (passTuples (group_builds l)).Nodup ∧
      (∀ t5, t5 ∈ passTuples (group_builds l) ↔ t5 ∈ l.map BuildInfo.tuple5) ∧
      (passTuples (group_builds l)).length = (l.map BuildInfo.tuple5).dedup.length := by
  have hgrp' := List.pairwise_map.mp (plan_groups_pairwise l)
  have hnd : (passTuples (group_builds l)).Nodup := by
    show (passTuples (group_builds l)).Pairwise (· ≠ ·)
    unfold passTuples
    rw [List.pairwise_flatMap]
    constructor
    · intro g hgmem
      rw [List.pairwise_flatMap]
      constructor
      · intro b hbmem
        have hp := List.pairwise_map.mp (plan_passes_pairwise hgmem hbmem)
        rw [List.pairwise_map]
        refine hp.imp ?_
        intro p₁ p₂ hlt heq
        have ht : p₁.target = p₂.target := congrArg (fun q => q.2.2.2.2) heq
        rw [ht] at hlt
        exact lt_irrefl _ hlt
      · have hbk := List.pairwise_map.mp (plan_builds_pairwise hgmem)
        refine hbk.imp ?_
        intro b₁ b₂ hlt x hx y hy heq
        rcases List.mem_map.mp hx with ⟨p₁, -, rfl⟩
        rcases List.mem_map.mp hy with ⟨p₂, -, rfl⟩
        have hv : b₁.version = b₂.version := congrArg (fun q => q.2.2.1) heq
        have hr : b₁.revision = b₂.revision := congrArg (fun q => q.2.2.2.1) heq
        have : (b₁.version, b₁.revision) = (b₂.version, b₂.revision) := by
          rw [hv, hr]
        exact buildKeyLt_ne hlt this
    · refine hgrp'.imp ?_
      intro g₁ g₂ hlt x hx y hy heq
      rcases List.mem_flatMap.mp hx with ⟨b₁, -, hx'⟩
      rcases List.mem_map.mp hx' with ⟨p₁, -, rfl⟩
      rcases List.mem_flatMap.mp hy with ⟨b₂, -, hy'⟩
      rcases List.mem_map.mp hy' with ⟨p₂, -, rfl⟩
      have hp : g₁.package = g₂.package := congrArg (fun q => q.1) heq
      have hr : g₁.repository = g₂.repository := congrArg (fun q => q.2.1) heq
      have : (g₁.package, g₁.repository) = (g₂.package, g₂.repository) := by
        rw [hp, hr]
      exact groupKeyLt_ne hlt this
  have hiff : ∀ t5, t5 ∈ passTuples (group_builds l) ↔ t5 ∈ l.map BuildInfo.tuple5 := by
    intro t5
    constructor
    · intro ht5
      unfold passTuples at ht5
      rcases List.mem_flatMap.mp ht5 with ⟨g, hg, hin⟩
      rcases List.mem_flatMap.mp hin with ⟨b, hb, hin2⟩
      rcases List.mem_map.mp hin2 with ⟨p, hp, rfl⟩
      have hne := (plan_abis_sorted hg hb hp).2
      rcases List.exists_mem_of_ne_nil p.abis hne with ⟨ab, hab⟩
      have htup : (g.package, g.repository, b.version, b.revision, p.target, ab) ∈
          flattenPlan (group_builds l) := by
        unfold flattenPlan
        exact List.mem_flatMap.mpr ⟨g, hg, List.mem_flatMap.mpr ⟨b, hb,
          List.mem_flatMap.mpr ⟨p, hp, List.mem_map.mpr ⟨ab, hab, rfl⟩⟩⟩⟩
      have hmem := (flattenPlan_perm l).mem_iff.mp htup
      rcases List.mem_map.mp hmem with ⟨u, hu, hEq⟩
      refine List.mem_map.mpr ⟨u, hu, ?_⟩
      obtain ⟨e1, e2, e3, e4, e5, -⟩ :
          u.package = g.package ∧ u.repository = g.repository ∧
            u.version = b.version ∧ u.revision = b.revision ∧
            u.target = p.target ∧ u.abi = ab := by
        simpa [BuildInfo.tuple, Prod.ext_iff] using hEq
      simp [BuildInfo.tuple5, e1, e2, e3, e4, e5]
    · intro ht5
      rcases List.mem_map.mp ht5 with ⟨u, hu, rfl⟩
      have hmem : BuildInfo.tuple u ∈ flattenPlan (group_builds l) :=
        (flattenPlan_perm l).mem_iff.mpr (List.mem_map_of_mem _ hu)
      unfold flattenPlan at hmem
      rcases List.mem_flatMap.mp hmem with ⟨g, hg, hin⟩
      rcases List.mem_flatMap.mp hin with ⟨b, hb, hin2⟩
      rcases List.mem_flatMap.mp hin2 with ⟨p, hp, hin3⟩
      rcases List.mem_map.mp hin3 with ⟨ab, hab, hEq⟩
      unfold passTuples
      refine List.mem_flatMap.mpr ⟨g, hg, List.mem_flatMap.mpr ⟨b, hb,
        List.mem_map.mpr ⟨p, hp, ?_⟩⟩⟩
      obtain ⟨e1, e2, e3, e4, e5, -⟩ :
          g.package = u.package ∧ g.repository = u.repository ∧
            b.version = u.version ∧ b.revision = u.revision ∧
            p.target = u.target ∧ ab = u.abi := by
        simpa [BuildInfo.tuple, Prod.ext_iff] using hEq
      simp [BuildInfo.tuple5, e1, e2, e3, e4, e5]
  refine ⟨hnd, hiff, ?_⟩
  have hfin : (passTuples (group_builds l)).toFinset = (l.map BuildInfo.tuple5).toFinset := by
    ext t5
    simp only [List.mem_toFinset]
    exact hiff t5
  calc (passTuples (group_builds l)).length
      = (passTuples (group_builds l)).toFinset.card :=
        (List.toFinset_card_of_nodup hnd).symm
    _ = (l.map BuildInfo.tuple5).toFinset.card := by rw [hfin]
    _ = (l.map BuildInfo.tuple5).dedup.length := List.card_toFinset _

/-- A 40-hex revision string, used by concrete witness inputs. -/
def hex40 : Str := List.replicate 40 'a'

/-- Satisfaction index of the claim C1 witness: only `abi3` is published for
`(pkgA, 1, manylinux_armv7l)`. -/
def providedC1 : _SatisfactionKey Nat → List Str := fun k =>
  if k = ⟨"pkgA".toList, 1, "manylinux_armv7l".toList⟩ then ["abi3".toList] else []

theorem gather_gap_iff_unsatisfied_witness :
    strToNat? "1".toList = some 1 ∧
    (∃ gaps,
      gather_build_infos strToNat? providedC1
          [⟨"pkgA".toList, "r".toList, [⟨hex40, "1".toList,
            ["manylinux_armv7l".toList], ["cp310".toList, "cp313t".toList]⟩]⟩] =
        .ok gaps ∧
      ((⟨"pkgA".toList, "r".toList, hex40, 1, .MANYLINUX_ARM7, .CP313T⟩ :
          BuildInfo Nat) ∈ gaps ↔
        ¬ ("cp313t".toList ∈ providedC1 ⟨"pkgA".toList, 1, "manylinux_armv7l".toList⟩ ∨
          (strStartsWith "cp313t".toList "cp3".toList = true ∧
            strEndsWith "cp313t".toList ['t'] = false ∧
            strEndsWith "cp313t".toList ['m'] = false ∧
            "abi3".toList ∈ providedC1 ⟨"pkgA".toList, 1, "manylinux_armv7l".toList⟩))) ∧
      (strEndsWith "cp313t".toList ['t'] = true →
        ((⟨"pkgA".toList, "r".toList, hex40, 1, .MANYLINUX_ARM7, .CP313T⟩ :
            BuildInfo Nat) ∈ gaps ↔
          "cp313t".toList ∉ providedC1 ⟨"pkgA".toList, 1, "manylinux_armv7l".toList⟩))) :=
  ⟨by decide,
    gather_gap_iff_unsatisfied strToNat? providedC1 "pkgA".toList "r".toList hex40
      "1".toList 1 ["manylinux_armv7l".toList] ["cp310".toList, "cp313t".toList]
      "manylinux_armv7l".toList "cp313t".toList .MANYLINUX_ARM7 .CP313T
      (by decide) (by decide) (by decide) (by decide) (by decide) (by decide)
      (by decide)⟩

theorem flattenPlan_exact_witness :
    ([gapUnitA] : List (BuildInfo Nat)).Nodup ∧
      ((flattenPlan (group_builds [gapUnitA])).Nodup ∧
        List.Perm (flattenPlan (group_builds [gapUnitA]))
          ([gapUnitA].map BuildInfo.tuple)) :=
  ⟨by decide, flattenPlan_exact [gapUnitA] (by decide)⟩

theorem plan_ordering_invariants_witness :
    ([gapUnitB] : List (BuildInfo Nat)).Nodup ∧
      ∀ g ∈ group_builds [gapUnitB],
        g.builds.Pairwise (fun b₁ b₂ =>
          buildKeyLt (b₁.version, b₁.revision) (b₂.version, b₂.revision)) ∧
        ∀ b ∈ g.builds,
          b.passes.Pairwise (fun p₁ p₂ => p₁.target.value < p₂.target.value) ∧
          ∀ p ∈ b.passes,
            p.abis.Nodup ∧ p.abis.Pairwise (fun a₁ a₂ => Abi.lt a₁ a₂ = true) :=
  ⟨by decide, plan_ordering_invariants [gapUnitB] (by decide)⟩

/-- Satisfaction index of the claim C4 counterexample: `abi3` published for
`(p, 1, manylinux_armv7l)`. -/
def providedC4 : _SatisfactionKey Nat → List Str := fun k =>
  if k = ⟨"p".toList, 1, "manylinux_armv7l".toList⟩ then ["abi3".toList] else []

/-- Build-matrix document of the claim C4 counterexample: a malformed
revision `"zz"` and the ABI string `"abi3"`, which is not an `Abi` member. -/
def badRevData : List DesiredGroup :=
  [⟨"p".toList, "r".toList, [⟨"zz".toList, "1".toList,
    ["manylinux_armv7l".toList], ["cp313t".toList, "abi3".toList]⟩]⟩]

/-- Counterexample to claim C4 as stated: the entry's revision is not a
40- or 64-hex string and its ABI list holds a value outside the `Abi`
enumeration, yet resolution does not fail — it returns a gap list (carrying
the malformed revision), because revisions are never validated on this path
and enum construction is skipped for satisfied pairs. -/
theorem gather_accepts_malformed_revision :
    revisionValid "zz".toList = false ∧
    Abi.ofStr? "abi3".toList = none ∧
    gather_build_infos strToNat? providedC4 badRevData =
      .ok [⟨"p".toList, "r".toList, "zz".toList, 1, .MANYLINUX_ARM7, .CP313T⟩] :=
  ⟨by decide, by decide, rfl⟩

/-- Build-matrix document of the claim C4 witness: an unparseable version. -/
def badVersionData : List DesiredGroup :=
  [⟨"p".toList, "r".toList, [⟨hex40, "x".toList,
    ["manylinux_armv7l".toList], ["cp310".toList]⟩]⟩]

/-- The empty satisfaction index over `Nat` versions. -/
def providedEmpty : _SatisfactionKey Nat → List Str := fun _ => []

theorem gather_fatal_on_bad_entry_witness :
    (∃ g ∈ badVersionData, ∃ db ∈ g.builds, strToNat? db.version = none) ∧
      ∃ e, gather_build_infos strToNat? providedEmpty badVersionData = .error e :=
  ⟨by decide,
    gather_fatal_on_bad_entry strToNat? providedEmpty badVersionData
      (Or.inl (by decide))⟩

/-- A wheel carrying an unrecognized platform tag, for the claim C5 witness. -/
def wheelBadPlatform : Wheel Nat :=
  ⟨"w".toList, "u".toList, "h".toList, "p".toList, 1,
    [⟨"cp310".toList, "cp310".toList, "windows_amd64".toList⟩]⟩

theorem expand_wheels_error_witness :
    (∃ w ∈ [wheelBadPlatform], ∃ tg ∈ w.tags, matchPlatform tg.platform = none) ∧
      ∃ e, expand_wheels [wheelBadPlatform] = .error e :=
  ⟨by decide,
    expand_wheels_error_on_unhandled_platform [wheelBadPlatform] (by decide)⟩

/-- Wheel-filename parser oracle of the claim C6 witness: it recognizes only
the good asset's name. -/
def wpW : Str → Option (Str × Nat × List Tag) := fun n =>
  if n = "good-1.0-cp310-cp310-manylinux_armv7l.whl".toList then
    some ("good".toList, 1, []) else none

/-- The well-formed asset of the claim C6 witness. -/
def goodAsset : Asset :=
  ⟨"good-1.0-cp310-cp310-manylinux_armv7l.whl".toList, "u1".toList,
    "sha256:aa".toList, "t1".toList⟩

/-- The bad asset of the claim C6 witness: its digest names the
unrecognized algorithm `foo`. -/
def badAsset : Asset :=
  ⟨"bad-1.0-x.whl".toList, "u2".toList, "foo:bb".toList, "t2".toList⟩

theorem parse_skips_bad_asset_witness :
    (algorithmsGuaranteed.contains (beforeColon badAsset.digest) = false ∨
      wpW badAsset.name = none) ∧
    parse wpW (fun _ => true) [⟨[goodAsset, badAsset]⟩] =
      parse wpW (fun _ => true) [⟨[goodAsset]⟩] :=
  ⟨Or.inl (by decide),
    parse_skips_bad_asset wpW (fun _ => true) [] [] [goodAsset] [] badAsset
      (Or.inl (by decide))⟩

/-- Two concrete wheel sort keys ordered by package, for the claim C7
witness. -/
def wkA : WheelSortKey Nat := ⟨"a".toList, 1, []⟩

/-- See `wkA`. -/
def wkB : WheelSortKey Nat := ⟨"b".toList, 1, []⟩

theorem wheelLt_asymm_witness :
    wheelLt wkA wkB = true ∧ wheelLt wkB wkA = false :=
  ⟨by decide, wheelLt_strict_weak_order.2 wkA wkB (by decide)⟩

end Picopypi
